import Mathlib

/-!
# Verification of the bitbankutil_rs order-book and order-reconciliation core

This file embeds, in Lean, the core data structures and algorithms of the
`bitbankutil_rs` repository:

* `BitbankDepth` (src/bitbank_structs.rs): the order-book reconstruction engine
  (`insert_diff`, `update_whole`, `process_diff_buffer`) over two
  `BTreeMap<Decimal, f64>` book sides and a `BTreeMap<String, BitbankDepthDiff>`
  diff buffer;
* the `Depth` trait queries `best_ask` / `best_bid` (src/lib.rs);
* `place_wanna_orders_concurrent` (src/order_manager.rs): the live-vs-desired
  order diff step and the capital-aware two-batch partition, together with the
  exact `post_order` request shapes it issues;
* `MyBot::update_orders` (src/strategies/best_mm.rs): the refresh routine of the
  best-price market-making strategy.

Embedding conventions:

* Rust `Decimal` prices and balances, and the `f64` book quantities, are
  modelled as `ℚ`.  The code only parses these from decimal strings and then
  adds, subtracts, multiplies, divides, floors and compares them; no claim in
  scope depends on `Decimal`'s 96-bit mantissa limit or on `f64` rounding
  (book quantities are never added — only stored and compared to zero with
  exact `==`), so exact rational arithmetic is a faithful model.  String
  parsing (serde / `str::parse`) is out of scope: levels, balances and order
  fields carry their parsed numeric values directly, and fields that are
  `Option<String>` in Rust (absent for some order types) are `Option ℚ`.
* Rust `String` sequence ids are ordered lexicographically by `Ord`; they are
  modelled as their character lists (`SeqId := List Char`) with the
  lexicographic order, which is the same total order on the ASCII ids the
  exchange sends.  Pair names, sides and order types stay `String` (only
  equality is used on them).
* `BTreeMap` is modelled as an association list strictly sorted by key
  (`mapInsert` / `mapRemove` / `mapLookup` below); `BTreeSet` as a strictly
  sorted duplicate-free list (`setInsertBy`).  Iteration order of a `BTreeMap`
  / `BTreeSet` is ascending key order, which is exactly the order of the
  modelled lists.
* Rust panics (`unwrap` on `None`, `assert!`, `panic!`, `Decimal` division by
  zero) are modelled by `Option` / dedicated failure results: `none` (or a
  failure constructor) is "the code aborts here".
-/

/-- A Rust `String` sequence id, as its list of characters with the
lexicographic order (the order `Ord` on `String` gives for the ASCII ids the
exchange produces). -/
abbrev SeqId := List Char

section SortedAssoc

variable {κ ν : Type} [LinearOrder κ]

/-- `BTreeMap::insert` on an association list sorted strictly by key:
replace the value when the key is present, otherwise insert at the unique
sorted position. -/
def mapInsert (k : κ) (v : ν) : List (κ × ν) → List (κ × ν)
  | [] => [(k, v)]
  | (k₁, v₁) :: t =>
    if k < k₁ then (k, v) :: (k₁, v₁) :: t
    else if k = k₁ then (k, v) :: t
    else (k₁, v₁) :: mapInsert k v t

/-- `BTreeMap::remove` on a sorted association list: drop the entry with the
given key, if any. -/
def mapRemove (k : κ) : List (κ × ν) → List (κ × ν)
  | [] => []
  | (k₁, v₁) :: t => if k = k₁ then t else (k₁, v₁) :: mapRemove k t

/-- `BTreeMap::get` on an association list: the value at the first entry with
the given key. -/
def mapLookup (k : κ) : List (κ × ν) → Option ν
  | [] => none
  | (k₁, v₁) :: t => if k = k₁ then some v₁ else mapLookup k t

theorem mapInsert_cons (k k₁ : κ) (v v₁ : ν) (t : List (κ × ν)) :
    mapInsert k v ((k₁, v₁) :: t) =
      if k < k₁ then (k, v) :: (k₁, v₁) :: t
      else if k = k₁ then (k, v) :: t
      else (k₁, v₁) :: mapInsert k v t := rfl

theorem mapRemove_cons (k k₁ : κ) (v₁ : ν) (t : List (κ × ν)) :
    mapRemove k ((k₁, v₁) :: t) =
      if k = k₁ then t else (k₁, v₁) :: mapRemove k t := rfl

theorem mapLookup_cons (k k₁ : κ) (v₁ : ν) (t : List (κ × ν)) :
    mapLookup k ((k₁, v₁) :: t) =
      if k = k₁ then some v₁ else mapLookup k t := rfl

/-- The strict-sortedness invariant of the modelled `BTreeMap`. -/
def SortedMap (m : List (κ × ν)) : Prop :=
  m.Pairwise (fun a b => a.1 < b.1)

theorem mem_mapInsert {k : κ} {v : ν} {m : List (κ × ν)} {p : κ × ν}
    (h : p ∈ mapInsert k v m) : p = (k, v) ∨ p ∈ m := by
  induction m with
  | nil => simpa [mapInsert] using h
  | cons hd t ih =>
    obtain ⟨k₁, v₁⟩ := hd
    rw [mapInsert_cons] at h
    by_cases h1 : k < k₁
    · rw [if_pos h1] at h
      simpa using h
    · rw [if_neg h1] at h
      by_cases h2 : k = k₁
      · subst h2
        rw [if_pos rfl] at h
        rcases List.mem_cons.mp h with h' | h'
        · exact Or.inl h'
        · exact Or.inr (List.mem_cons_of_mem _ h')
      · rw [if_neg h2] at h
        rcases List.mem_cons.mp h with h' | h'
        · exact Or.inr (by simp [h'])
        · rcases ih h' with h'' | h''
          · exact Or.inl h''
          · exact Or.inr (List.mem_cons_of_mem _ h'')

theorem self_mem_mapInsert (k : κ) (v : ν) (m : List (κ × ν)) :
    (k, v) ∈ mapInsert k v m := by
  induction m with
  | nil => simp [mapInsert]
  | cons hd t ih =>
    obtain ⟨k₁, v₁⟩ := hd
    rw [mapInsert_cons]
    by_cases h1 : k < k₁
    · simp [h1]
    · by_cases h2 : k = k₁ <;> simp [h1, h2, ih]

theorem sorted_mapInsert {k : κ} {v : ν} {m : List (κ × ν)}
    (h : SortedMap m) : SortedMap (mapInsert k v m) := by
  induction m with
  | nil => simp [mapInsert, SortedMap]
  | cons hd t ih =>
    obtain ⟨k₁, v₁⟩ := hd
    have hhd : ∀ p ∈ t, k₁ < p.1 := fun p hp => List.rel_of_pairwise_cons h hp
    have ht : SortedMap t := List.Pairwise.of_cons h
    rw [SortedMap, mapInsert_cons]
    by_cases h1 : k < k₁
    · rw [if_pos h1]
      refine List.Pairwise.cons ?_ h
      intro p hp
      rcases List.mem_cons.mp hp with hp' | hp'
      · simpa [hp'] using h1
      · exact lt_trans h1 (hhd p hp')
    · rw [if_neg h1]
      by_cases h2 : k = k₁
      · subst h2
        rw [if_pos rfl]
        exact List.Pairwise.cons (fun p hp => hhd p hp) ht
      · rw [if_neg h2]
        refine List.Pairwise.cons ?_ (ih ht)
        intro p hp
        rcases mem_mapInsert hp with hp' | hp'
        · have : k₁ < k := lt_of_le_of_ne (not_lt.mp h1) (fun hk => h2 hk.symm)
          simpa [hp'] using this
        · exact hhd p hp'

theorem mapRemove_sublist (k : κ) (m : List (κ × ν)) :
    (mapRemove k m).Sublist m := by
  induction m with
  | nil => simp [mapRemove]
  | cons hd t ih =>
    obtain ⟨k₁, v₁⟩ := hd
    rw [mapRemove_cons]
    by_cases h : k = k₁
    · rw [if_pos h]
      exact List.sublist_cons_self _ _
    · rw [if_neg h]
      exact List.Sublist.cons₂ (k₁, v₁) ih

theorem sorted_mapRemove {k : κ} {m : List (κ × ν)}
    (h : SortedMap m) : SortedMap (mapRemove k m) :=
  h.sublist (mapRemove_sublist k m)

theorem mapLookup_mapInsert_self (k : κ) (v : ν) (m : List (κ × ν)) :
    mapLookup k (mapInsert k v m) = some v := by
  induction m with
  | nil => simp [mapInsert, mapLookup]
  | cons hd t ih =>
    obtain ⟨k₁, v₁⟩ := hd
    rw [mapInsert_cons]
    by_cases h1 : k < k₁
    · simp [mapLookup_cons, h1]
    · by_cases h2 : k = k₁ <;> simp [mapLookup_cons, h1, h2, ih]

theorem mapLookup_mapInsert_ne {k k' : κ} (hne : k' ≠ k) (v : ν)
    (m : List (κ × ν)) : mapLookup k' (mapInsert k v m) = mapLookup k' m := by
  induction m with
  | nil => simp [mapInsert, mapLookup, hne]
  | cons hd t ih =>
    obtain ⟨k₁, v₁⟩ := hd
    rw [mapInsert_cons]
    by_cases h1 : k < k₁
    · simp [mapLookup_cons, h1, hne]
    · by_cases h2 : k = k₁
      · subst h2
        simp [mapLookup_cons, h1, hne]
      · by_cases h3 : k' = k₁ <;> simp [mapLookup_cons, h1, h2, h3, ih]

theorem mapLookup_mapRemove_ne {k k' : κ} (hne : k' ≠ k) (m : List (κ × ν)) :
    mapLookup k' (mapRemove k m) = mapLookup k' m := by
  induction m with
  | nil => simp [mapRemove]
  | cons hd t ih =>
    obtain ⟨k₁, v₁⟩ := hd
    rw [mapRemove_cons]
    by_cases h1 : k = k₁
    · subst h1
      simp [mapLookup_cons, fun h => hne h]
    · by_cases h2 : k' = k₁ <;> simp [mapLookup_cons, h1, h2, ih]

theorem mapLookup_eq_none_iff {k : κ} {m : List (κ × ν)} :
    mapLookup k m = none ↔ ∀ p ∈ m, p.1 ≠ k := by
  induction m with
  | nil => simp [mapLookup]
  | cons hd t ih =>
    obtain ⟨k₁, v₁⟩ := hd
    rw [mapLookup_cons]
    by_cases h : k = k₁
    · subst h
      simp
    · rw [if_neg h]
      simp only [List.mem_cons, ne_eq]
      constructor
      · intro hn p hp
        rcases hp with hp | hp
        · simp [hp]
          exact fun hk => h hk.symm
        · exact ih.mp hn p hp
      · intro hall
        exact ih.mpr (fun p hp => hall p (Or.inr hp))

theorem mapLookup_mapRemove_self {k : κ} {m : List (κ × ν)}
    (h : SortedMap m) : mapLookup k (mapRemove k m) = none := by
  rw [mapLookup_eq_none_iff]
  induction m with
  | nil => simp [mapRemove]
  | cons hd t ih =>
    obtain ⟨k₁, v₁⟩ := hd
    have hhd : ∀ p ∈ t, k₁ < p.1 := fun p hp => List.rel_of_pairwise_cons h hp
    have ht : SortedMap t := List.Pairwise.of_cons h
    rw [mapRemove_cons]
    by_cases h1 : k = k₁
    · subst h1
      rw [if_pos rfl]
      exact fun p hp => ne_of_gt (hhd p hp)
    · rw [if_neg h1]
      intro p hp
      rcases List.mem_cons.mp hp with hp' | hp'
      · simp [hp']
        exact fun hk => h1 hk.symm
      · exact ih ht p hp'

theorem mapLookup_eq_none_of_forall_lt {k : κ} {m : List (κ × ν)}
    (h : ∀ p ∈ m, k < p.1) : mapLookup k m = none :=
  mapLookup_eq_none_iff.mpr (fun p hp => ne_of_gt (h p hp))

/-- Extensionality: two strictly sorted association lists with the same
lookups are equal. -/
theorem sortedMap_ext {m₁ m₂ : List (κ × ν)} (h₁ : SortedMap m₁)
    (h₂ : SortedMap m₂) (h : ∀ k, mapLookup k m₁ = mapLookup k m₂) :
    m₁ = m₂ := by
  induction m₁ generalizing m₂ with
  | nil =>
    cases m₂ with
    | nil => rfl
    | cons hd t =>
      obtain ⟨k₁, v₁⟩ := hd
      have := h k₁
      rw [mapLookup_cons, if_pos rfl] at this
      simp [mapLookup] at this
  | cons hd₁ t₁ ih =>
    obtain ⟨k₁, v₁⟩ := hd₁
    have hhd₁ : ∀ p ∈ t₁, k₁ < p.1 :=
      fun p hp => List.rel_of_pairwise_cons h₁ hp
    have ht₁ : SortedMap t₁ := List.Pairwise.of_cons h₁
    cases m₂ with
    | nil =>
      have := h k₁
      rw [mapLookup_cons, if_pos rfl] at this
      simp [mapLookup] at this
    | cons hd₂ t₂ =>
      obtain ⟨k₂, v₂⟩ := hd₂
      have hhd₂ : ∀ p ∈ t₂, k₂ < p.1 :=
        fun p hp => List.rel_of_pairwise_cons h₂ hp
      have ht₂ : SortedMap t₂ := List.Pairwise.of_cons h₂
      rcases lt_trichotomy k₁ k₂ with hlt | heq | hgt
      · exfalso
        have hk := h k₁
        rw [mapLookup_cons, if_pos rfl, mapLookup_cons,
          if_neg (ne_of_lt hlt)] at hk
        rw [mapLookup_eq_none_of_forall_lt
          (fun p hp => lt_trans hlt (hhd₂ p hp))] at hk
        exact Option.noConfusion hk
      · subst heq
        have hv := h k₁
        rw [mapLookup_cons, if_pos rfl, mapLookup_cons, if_pos rfl] at hv
        obtain rfl : v₁ = v₂ := Option.some.inj hv
        have htl : t₁ = t₂ := by
          refine ih ht₁ ht₂ (fun k => ?_)
          by_cases hk : k = k₁
          · subst hk
            rw [mapLookup_eq_none_of_forall_lt hhd₁,
              mapLookup_eq_none_of_forall_lt hhd₂]
          · have := h k
            rwa [mapLookup_cons, if_neg hk, mapLookup_cons, if_neg hk] at this
        rw [htl]
      · exfalso
        have hk := h k₂
        rw [mapLookup_cons, if_neg (ne_of_lt hgt), mapLookup_cons,
          if_pos rfl] at hk
        rw [mapLookup_eq_none_of_forall_lt
          (fun p hp => lt_trans hgt (hhd₁ p hp))] at hk
        exact Option.noConfusion hk

end SortedAssoc

section SortedSet

variable {α β : Type} [LinearOrder β]

/-- `BTreeSet::insert` on a list sorted strictly by an injective key:
keep the existing element when an equal key is present, otherwise insert at
the unique sorted position. -/
def setInsertBy (key : α → β) (x : α) : List α → List α
  | [] => [x]
  | h :: t =>
    if key x < key h then x :: h :: t
    else if key x = key h then h :: t
    else h :: setInsertBy key x t

theorem setInsertBy_cons (key : α → β) (x hd : α) (t : List α) :
    setInsertBy key x (hd :: t) =
      if key x < key hd then x :: hd :: t
      else if key x = key hd then hd :: t
      else hd :: setInsertBy key x t := rfl

/-- The strict-sortedness invariant of the modelled `BTreeSet`. -/
def SortedSetBy (key : α → β) (l : List α) : Prop :=
  l.Pairwise (fun a b => key a < key b)

theorem mem_setInsertBy {key : α → β} {x y : α} {l : List α}
    (h : y ∈ setInsertBy key x l) : y = x ∨ y ∈ l := by
  induction l with
  | nil => simpa [setInsertBy] using h
  | cons hd t ih =>
    rw [setInsertBy_cons] at h
    by_cases h1 : key x < key hd
    · rw [if_pos h1] at h
      simpa using h
    · rw [if_neg h1] at h
      by_cases h2 : key x = key hd
      · rw [if_pos h2] at h
        exact Or.inr h
      · rw [if_neg h2] at h
        rcases List.mem_cons.mp h with h' | h'
        · exact Or.inr (by simp [h'])
        · rcases ih h' with h'' | h''
          · exact Or.inl h''
          · exact Or.inr (List.mem_cons_of_mem _ h'')

theorem mem_setInsertBy_of_mem {key : α → β} {y : α} (x : α) {l : List α}
    (h : y ∈ l) : y ∈ setInsertBy key x l := by
  induction l with
  | nil => simp at h
  | cons hd t ih =>
    rw [setInsertBy_cons]
    by_cases h1 : key x < key hd
    · rw [if_pos h1]
      exact List.mem_cons_of_mem _ h
    · rw [if_neg h1]
      by_cases h2 : key x = key hd
      · rw [if_pos h2]
        exact h
      · rw [if_neg h2]
        rcases List.mem_cons.mp h with h' | h'
        · simp [h']
        · exact List.mem_cons_of_mem _ (ih h')

theorem self_mem_setInsertBy {key : α → β} (hinj : Function.Injective key)
    (x : α) (l : List α) : x ∈ setInsertBy key x l := by
  induction l with
  | nil => simp [setInsertBy]
  | cons hd t ih =>
    rw [setInsertBy_cons]
    by_cases h1 : key x < key hd
    · simp [h1]
    · by_cases h2 : key x = key hd
      · rw [if_neg h1, if_pos h2]
        simp [hinj h2]
      · rw [if_neg h1, if_neg h2]
        exact List.mem_cons_of_mem _ ih

theorem sorted_setInsertBy {key : α → β} {x : α} {l : List α}
    (h : SortedSetBy key l) : SortedSetBy key (setInsertBy key x l) := by
  induction l with
  | nil => simp [setInsertBy, SortedSetBy]
  | cons hd t ih =>
    have hhd : ∀ y ∈ t, key hd < key y :=
      fun y hy => List.rel_of_pairwise_cons h hy
    have ht : SortedSetBy key t := List.Pairwise.of_cons h
    rw [SortedSetBy, setInsertBy_cons]
    by_cases h1 : key x < key hd
    · rw [if_pos h1]
      refine List.Pairwise.cons ?_ h
      intro y hy
      rcases List.mem_cons.mp hy with hy' | hy'
      · simpa [hy'] using h1
      · exact lt_trans h1 (hhd y hy')
    · rw [if_neg h1]
      by_cases h2 : key x = key hd
      · rw [if_pos h2]
        exact h
      · rw [if_neg h2]
        refine List.Pairwise.cons ?_ (ih ht)
        intro y hy
        rcases mem_setInsertBy hy with hy' | hy'
        · have : key hd < key x :=
            lt_of_le_of_ne (not_lt.mp h1) (fun hk => h2 hk.symm)
          simpa [hy'] using this
        · exact hhd y hy'

theorem nodup_of_sortedSetBy {key : α → β} {l : List α}
    (h : SortedSetBy key l) : l.Nodup :=
  h.imp (fun hlt => by rintro rfl; exact lt_irrefl _ hlt)

end SortedSet

/-! ## The order book: `BitbankDepth` (src/bitbank_structs.rs) -/

/-- The parsed payload of one `depth_diff` websocket message
(`BitbankDepthDiff` in src/bitbank_structs.rs).  `a` / `b` are the ask / bid
level lists, each level a `(price, amount)` pair (parsed from the wire's
string pairs); `t` is the millisecond timestamp; `s` the sequence id.
The optional circuit-breaker fields (`ao`, `bu`, `au`, `bo`, `am`, `bm`) are
never read by the code under verification and are omitted. -/
structure BitbankDepthDiff where
  a : List (ℚ × ℚ)
  b : List (ℚ × ℚ)
  t : Int
  s : SeqId
deriving DecidableEq

/-- The parsed payload of one `depth_whole` snapshot message
(`BitbankDepthWhole` in src/bitbank_structs.rs), with the unused aggregate
fields (`asks_over`, `bids_under`, `asks_under`, `bids_over`, `ask_market`,
`bid_market`) omitted. -/
structure BitbankDepthWhole where
  asks : List (ℚ × ℚ)
  bids : List (ℚ × ℚ)
  timestamp : Int
  sequenceId : SeqId
deriving DecidableEq

/-- The book state (`BitbankDepth` in src/bitbank_structs.rs):
a diff buffer keyed by sequence id, the two book sides keyed by price, the
completeness flag and the latest seen timestamp. -/
structure BitbankDepth where
  diff_buffer : List (SeqId × BitbankDepthDiff)
  asks : List (ℚ × ℚ)
  bids : List (ℚ × ℚ)
  is_complete : Bool
  last_timestamp : Int
deriving DecidableEq

/-- One `(price, amount)` level applied to a book side, exactly the per-level
body shared by `insert_diff` and `process_diff_buffer`: amount `0` removes the
price, a nonzero amount upserts it. -/
def applyLevel (m : List (ℚ × ℚ)) (lvl : ℚ × ℚ) : List (ℚ × ℚ) :=
  if lvl.2 = 0 then mapRemove lvl.1 m else mapInsert lvl.1 lvl.2 m

/-- A diff's level list applied to a book side in order. -/
def applyLevels (levels : List (ℚ × ℚ)) (m : List (ℚ × ℚ)) : List (ℚ × ℚ) :=
  levels.foldl applyLevel m

/-- Loading a snapshot side into a cleared book side: plain inserts, in order
(`update_whole`'s load loop). -/
def loadLevels (levels : List (ℚ × ℚ)) : List (ℚ × ℚ) :=
  levels.foldl (fun m lvl => mapInsert lvl.1 lvl.2 m) []

namespace BitbankDepth

/-- `BitbankDepth::new()`. -/
def new : BitbankDepth :=
  { diff_buffer := [], asks := [], bids := [], last_timestamp := 0,
    is_complete := false }

/-- `BitbankDepth::insert_diff`: apply the diff's ask and bid levels to the
live book (zero removes, nonzero upserts), advance `last_timestamp` to the
max, and buffer the diff keyed by its sequence id. -/
def insert_diff (st : BitbankDepth) (diff : BitbankDepthDiff) : BitbankDepth :=
  { st with
    asks := applyLevels diff.a st.asks
    bids := applyLevels diff.b st.bids
    last_timestamp :=
      if st.last_timestamp < diff.t then diff.t else st.last_timestamp
    diff_buffer := mapInsert diff.s diff st.diff_buffer }

/-- `BitbankDepth::process_diff_buffer`: replay every buffered diff, in the
buffer's ascending sequence-id order, onto the book sides with the same
per-level logic as `insert_diff`; the buffer itself is left unchanged. -/
def process_diff_buffer (st : BitbankDepth) : BitbankDepth :=
  st.diff_buffer.foldl
    (fun s kd =>
      { s with
        asks := applyLevels kd.2.a s.asks
        bids := applyLevels kd.2.b s.bids })
    st

/-- `BitbankDepth::update_whole`: drop the buffered diffs whose sequence id is
strictly less than the snapshot's, clear both sides, load every snapshot
level (`assert_ne!(amount, 0)` on each level is modelled by returning `none`
on a zero quantity), advance `last_timestamp`, replay the remaining buffer,
and mark the book complete. -/
def update_whole (st : BitbankDepth) (whole : BitbankDepthWhole) :
    Option BitbankDepth :=
  let seq := whole.sequenceId
  if (∀ lvl ∈ whole.asks, lvl.2 ≠ 0) ∧ (∀ lvl ∈ whole.bids, lvl.2 ≠ 0) then
    some
      { process_diff_buffer
          { st with
            diff_buffer := st.diff_buffer.filter (fun kd => ¬ kd.1 < seq)
            asks := loadLevels whole.asks
            bids := loadLevels whole.bids
            last_timestamp :=
              if st.last_timestamp < whole.timestamp then whole.timestamp
              else st.last_timestamp } with
        is_complete := true }
  else none

/-- `Depth::best_ask` (src/lib.rs): the first (lowest-price) ask entry. -/
def best_ask (st : BitbankDepth) : Option (ℚ × ℚ) :=
  st.asks.head?

/-- `Depth::best_bid` (src/lib.rs): the last (highest-price) bid entry. -/
def best_bid (st : BitbankDepth) : Option (ℚ × ℚ) :=
  st.bids.getLast?

end BitbankDepth

/-- An inbound depth message: a diff or a whole snapshot. -/
inductive DepthMsg where
  | diff (d : BitbankDepthDiff)
  | whole (w : BitbankDepthWhole)
deriving DecidableEq

/-- Routing one inbound message to `insert_diff` / `update_whole`
(the `depth_diff` / `depth_whole` arms of the websocket dispatch). -/
def applyMsg (st : BitbankDepth) : DepthMsg → Option BitbankDepth
  | DepthMsg.diff d => some (st.insert_diff d)
  | DepthMsg.whole w => st.update_whole w

/-- A whole arrival sequence of depth messages applied in order. -/
def runMsgs (st : BitbankDepth) (msgs : List DepthMsg) : Option BitbankDepth :=
  msgs.foldlM applyMsg st

/-- The reachable-state invariant of `BitbankDepth`: the diff buffer and both
book sides are sorted `BTreeMap`s, and every buffer entry is keyed by its
diff's own sequence id. -/
def DepthWF (st : BitbankDepth) : Prop :=
  SortedMap st.diff_buffer ∧ SortedMap st.asks ∧ SortedMap st.bids ∧
    ∀ kd ∈ st.diff_buffer, kd.1 = kd.2.s

/-! ## Order reconciliation: `place_wanna_orders_concurrent`
(src/order_manager.rs) -/

/-- A desired order (`SimplifiedOrder` in src/order_manager.rs).  Equality and
ordering are structural on `(pair, side, amount, price)`, in that field order
(the derived Rust `Ord`). -/
structure SimplifiedOrder where
  pair : String
  side : String
  amount : ℚ
  price : ℚ
deriving DecidableEq

/-- The derived lexicographic key of a `SimplifiedOrder`: `(pair, side,
amount, price)`, strings by their character lists (byte order and character
order agree on the ASCII pair/side names). -/
def sordKey (o : SimplifiedOrder) :
    (List Char) ×ₗ ((List Char) ×ₗ (ℚ ×ₗ ℚ)) :=
  toLex (o.pair.data, toLex (o.side.data, toLex (o.amount, o.price)))

theorem sordKey_injective : Function.Injective sordKey := by
  intro a b h
  obtain ⟨⟨pa⟩, ⟨sa⟩, aa, ra⟩ := a
  obtain ⟨⟨pb⟩, ⟨sb⟩, ab, rb⟩ := b
  simp only [sordKey, toLex_inj, Prod.mk.injEq] at h
  simp_all

/-- The fields of a live order (`BitbankGetOrderResponse` in
src/bitbank_structs.rs) read by the reconciler and the strategy; the
remaining response fields are never inspected and are omitted.
`remaining_amount` and `price` are `Option<String>` on the wire (absent for
some order types); a present value is carried parsed. -/
structure BitbankGetOrderResponse where
  order_id : Nat
  pair : String
  side : String
  type : String
  remaining_amount : Option ℚ
  price : Option ℚ
deriving DecidableEq

/-- One iteration of the current-orders loop of
`place_wanna_orders_concurrent` (src/order_manager.rs lines 142-173), over the
accumulator `(wanna_place_orders, should_cancelled_orderids)`.  The
`.unwrap()` calls on `remaining_amount` and `price` are the `Option` binds:
an absent field aborts (panics).  A live order of the traded pair with no
structural match is appended to the cancel ids; otherwise the first
structurally equal entry of `wanna_place_orders` (if any) is removed. -/
def reconcileStep (pair : String) (acc : List SimplifiedOrder × List Nat)
    (cur : BitbankGetOrderResponse) :
    Option (List SimplifiedOrder × List Nat) := do
  let ra ← cur.remaining_amount
  let p ← cur.price
  let current_sord : SimplifiedOrder :=
    { pair := cur.pair, side := cur.side, amount := ra, price := p }
  if ¬ current_sord ∈ acc.1 ∧ current_sord.pair = pair then
    pure (acc.1, acc.2 ++ [cur.order_id])
  else
    pure (acc.1.erase current_sord, acc.2)

/-- The whole current-orders loop: fold `reconcileStep` over the live orders
in order, starting from the desired list and no cancellations. -/
def reconcileDiffStep (wanna_place_orders : List SimplifiedOrder)
    (current_orders : List BitbankGetOrderResponse) (pair : String) :
    Option (List SimplifiedOrder × List Nat) :=
  current_orders.foldlM (reconcileStep pair) (wanna_place_orders, [])

/-- The running state of the capital-aware partition loop
(src/order_manager.rs lines 175-211). -/
structure PartitionState where
  next_btc_free_amount : ℚ
  next_jpy_free_amount : ℚ
  first_posted_orders : List SimplifiedOrder
  second_posted_orders : List SimplifiedOrder
deriving DecidableEq

/-- One iteration of the partition loop: a buy consumes `amount * price` of
quote if affordable (first batch) else is deferred (second batch); a sell
consumes `amount` of base likewise; any other side is the `panic!` arm
(`none`).  The batches are `BTreeSet<SimplifiedOrder>` inserts. -/
def partitionStep (st : PartitionState) (sord : SimplifiedOrder) :
    Option PartitionState :=
  if sord.side = "buy" then
    let consumed_jpy := sord.amount * sord.price
    if st.next_jpy_free_amount ≥ consumed_jpy then
      some { st with
        first_posted_orders := setInsertBy sordKey sord st.first_posted_orders
        next_jpy_free_amount := st.next_jpy_free_amount - consumed_jpy }
    else
      some { st with
        second_posted_orders :=
          setInsertBy sordKey sord st.second_posted_orders }
  else if sord.side = "sell" then
    let consumed_btc := sord.amount
    if st.next_btc_free_amount ≥ consumed_btc then
      some { st with
        first_posted_orders := setInsertBy sordKey sord st.first_posted_orders
        next_btc_free_amount := st.next_btc_free_amount - consumed_btc }
    else
      some { st with
        second_posted_orders :=
          setInsertBy sordKey sord st.second_posted_orders }
  else none

/-- The whole partition loop of `place_wanna_orders_concurrent`: fold
`partitionStep` over the remaining desired orders in priority (list) order,
returning the first (immediate) and second (deferred) batches. -/
def partitionOrders (wanna_place_orders : List SimplifiedOrder)
    (btc_free_amount jpy_free_amount : ℚ) :
    Option (List SimplifiedOrder × List SimplifiedOrder) :=
  (wanna_place_orders.foldlM partitionStep
      { next_btc_free_amount := btc_free_amount
        next_jpy_free_amount := jpy_free_amount
        first_posted_orders := []
        second_posted_orders := [] }).map
    (fun st => (st.first_posted_orders, st.second_posted_orders))

/-- The argument tuple of one `post_order` call
(`BitbankTradingApi::post_order(pair, amount, price, side, type, post_only,
trigger_price)`). -/
structure PostOrderReq where
  pair : String
  amount : ℚ
  price : Option ℚ
  side : String
  type : String
  post_only : Option Bool
  trigger_price : Option ℚ
deriving DecidableEq

/-- The `post_order` request built for one desired order, in both the first
and the second batch of `place_wanna_orders_concurrent` (src/order_manager.rs
lines 240-248 and 288-296): a post-only limit order at the desired price. -/
def postReqOf (pair : String) (sord : SimplifiedOrder) : PostOrderReq :=
  { pair := pair
    amount := sord.amount
    price := some sord.price
    side := sord.side
    type := "limit"
    post_only := some true
    trigger_price := none }

/-- Every placement request issued by one reconciliation cycle: the first
batch's requests (spawned alongside the cancellations) followed by the second
batch's. -/
def placementRequests (pair : String)
    (first second : List SimplifiedOrder) : List PostOrderReq :=
  first.map (postReqOf pair) ++ second.map (postReqOf pair)

/-- The actions computed by one `place_wanna_orders_concurrent` call: cancel
ids, first (immediate) batch and second (deferred) batch. -/
structure ReconcilePlan where
  should_cancelled_orderids : List Nat
  first_posted_orders : List SimplifiedOrder
  second_posted_orders : List SimplifiedOrder
deriving DecidableEq

/-- The decision core of `place_wanna_orders_concurrent`
(src/order_manager.rs): the current-orders diff loop followed by the
capital-aware partition.  `none` models a panic (absent `remaining_amount` or
`price` field, or an unrecognized side). -/
def place_wanna_orders_concurrent (wanna_place_orders : List SimplifiedOrder)
    (current_orders : List BitbankGetOrderResponse)
    (btc_free_amount jpy_free_amount : ℚ) (pair : String) :
    Option ReconcilePlan := do
  let (remaining, cancels) ←
    reconcileDiffStep wanna_place_orders current_orders pair
  let (first, second) ← partitionOrders remaining btc_free_amount
    jpy_free_amount
  pure
    { should_cancelled_orderids := cancels
      first_posted_orders := first
      second_posted_orders := second }

/-! ## The strategy refresh routine: `MyBot::update_orders`
(src/strategies/best_mm.rs) -/

/-- The strategy configuration (`MyBotConfig` in src/strategies/best_mm.rs;
the API client handle is not data). `refresh_cycle` is in milliseconds. -/
structure MyBotConfig where
  pair : String
  tick_size : ℚ
  refresh_cycle : Nat
  lot : ℚ
  max_lot : ℚ
deriving DecidableEq

/-- The fields of one asset entry (`BitbankAssetDatum`) read by
`update_orders`: the asset name and the parsed free / locked amounts. -/
structure BitbankAssetDatum where
  asset : String
  free_amount : ℚ
  locked_amount : ℚ
deriving DecidableEq

/-- `self.bot_config.pair.split('_').next().unwrap()`: the base-asset name is
everything before the first underscore (`split` always yields a first piece,
so the unwrap never fails). -/
def assetNameOf (pair : String) : String :=
  (pair.data.takeWhile (fun c => c ≠ '_')).asString

/-- The `btc_locked_jpy_amount` accumulation loop (best_mm.rs lines 144-155):
sum `price * remaining_amount` over live limit buy orders.  The two
`.unwrap()` calls are `Option` binds: a limit buy with an absent field
panics (`none`). -/
def btcLockedJpyAmount (orders : List BitbankGetOrderResponse) : Option ℚ :=
  orders.foldlM
    (fun acc ord =>
      if ord.type = "limit" ∧ ord.side = "buy" then do
        let p ← ord.price
        let ra ← ord.remaining_amount
        pure (acc + p * ra)
      else pure acc)
    0

/-- `has_bestask_order` (best_mm.rs lines 182-186): whether some live limit
sell order rests exactly at the best ask.  The code compares the raw price
string with `best_ask_price.to_string()`; the model compares the parsed
values. -/
def has_bestask_order (orders : List BitbankGetOrderResponse)
    (best_ask_price : ℚ) : Bool :=
  orders.any fun ord =>
    decide (ord.side = "sell" ∧ ord.type = "limit" ∧
      ord.price = some best_ask_price)

/-- `has_bestbid_order` (best_mm.rs lines 188-192): whether some live limit
buy order rests exactly at the best bid. -/
def has_bestbid_order (orders : List BitbankGetOrderResponse)
    (best_bid_price : ℚ) : Bool :=
  orders.any fun ord =>
    decide (ord.side = "buy" ∧ ord.type = "limit" ∧
      ord.price = some best_bid_price)

/-- `sell_price` (best_mm.rs lines 194-201): quote at the best ask when an own
order already rests there or improving would cross to the best bid; otherwise
improve by one tick. -/
def sell_price (orders : List BitbankGetOrderResponse)
    (best_ask_price best_bid_price tick_size : ℚ) : ℚ :=
  if has_bestask_order orders best_ask_price ∨
      best_ask_price - tick_size = best_bid_price then
    best_ask_price
  else
    best_ask_price - tick_size

/-- `buy_price` (best_mm.rs lines 203-210): quote at the best bid when an own
order already rests there or improving would cross to the best ask; otherwise
improve by one tick. -/
def buy_price (orders : List BitbankGetOrderResponse)
    (best_ask_price best_bid_price tick_size : ℚ) : ℚ :=
  if has_bestbid_order orders best_bid_price ∨
      best_bid_price + tick_size = best_ask_price then
    best_bid_price
  else
    best_bid_price + tick_size

/-- The observable outcome of one `update_orders` run.  The first three
constructors return before the two account fetches; the last three occur
after `get_active_orders` and `get_assets` have been issued.  `panicked`
models any of the routine's `unwrap`/division panics after the fetches
(missing asset entry, malformed order fields, an empty book side at
`best_ask().unwrap()` / `best_bid().unwrap()`, or `lot == 0`).  `planned`
carries the exact arguments handed to `place_wanna_orders_concurrent`. -/
inductive UpdateOutcome where
  | assertFailed
  | throttled
  | incomplete
  | fetchFailed
  | panicked
  | planned (wanna_place_orders : List SimplifiedOrder)
      (current_orders : List BitbankGetOrderResponse)
      (btc_free_amount jpy_free_amount : ℚ) (pair : String)
deriving DecidableEq

/-- Whether the outcome implies the two account API calls were issued. -/
def UpdateOutcome.apiCallsMade : UpdateOutcome → Bool
  | UpdateOutcome.assertFailed => false
  | UpdateOutcome.throttled => false
  | UpdateOutcome.incomplete => false
  | UpdateOutcome.fetchFailed => true
  | UpdateOutcome.panicked => true
  | UpdateOutcome.planned _ _ _ _ _ => true

/-- `MyBot::update_orders` (best_mm.rs lines 73-257) as a function of the
clock, the stored state and the results the two account fetches would
return: assert `last_updated ≤ now`; throttle by `refresh_cycle`; require a
complete book; fetch orders and assets (failures abort the cycle); then
compute balances, remainder lot, best ask/bid (`unwrap` panics on an empty
side), quote prices, the `can_buy`/`can_sell` gates, and the desired-order
list handed to `place_wanna_orders_concurrent`.  `Decimal` division by zero
(`lot == 0`) panics in Rust and is `none` here. -/
def updateOrders (cfg : MyBotConfig) (now last_updated : Nat)
    (depth : BitbankDepth)
    (ordersRes : Except Unit (List BitbankGetOrderResponse))
    (assetsRes : Except Unit (List BitbankAssetDatum)) : UpdateOutcome :=
  if ¬ last_updated ≤ now then UpdateOutcome.assertFailed
  else if ¬ now - last_updated ≥ cfg.refresh_cycle then UpdateOutcome.throttled
  else if ¬ depth.is_complete then UpdateOutcome.incomplete
  else
    match ordersRes with
    | Except.error _ => UpdateOutcome.fetchFailed
    | Except.ok active_orders =>
      match assetsRes with
      | Except.error _ => UpdateOutcome.fetchFailed
      | Except.ok assets =>
        match (do
          let asset_name := assetNameOf cfg.pair
          let btc_asset ← assets.find? (fun a => a.asset = asset_name)
          let jpy_asset ← assets.find? (fun a => a.asset = "jpy")
          let btc_locked_jpy_amount ← btcLockedJpyAmount active_orders
          let btc_free_amount := btc_asset.free_amount
          let btc_locked_amount := btc_asset.locked_amount
          let btc_amount := btc_free_amount + btc_locked_amount
          let btc_amount_remainder ←
            if cfg.lot = 0 then none
            else some (btc_amount -
              (((btc_amount / cfg.lot).floor : ℤ) : ℚ) * cfg.lot)
          let jpy_free_amount := jpy_asset.free_amount
          let jpy_amount := jpy_free_amount + btc_locked_jpy_amount
          let bestAskLvl ← depth.best_ask
          let bestBidLvl ← depth.best_bid
          let best_ask_price := bestAskLvl.1
          let best_bid_price := bestBidLvl.1
          let sp := sell_price active_orders best_ask_price best_bid_price
            cfg.tick_size
          let bp := buy_price active_orders best_ask_price best_bid_price
            cfg.tick_size
          let can_buy := jpy_amount ≥ bp * cfg.lot ∧
            btc_amount + cfg.lot ≤ cfg.max_lot
          let can_sell := btc_amount ≥ cfg.lot
          let wanna :=
            (if can_buy then
              [{ pair := cfg.pair, side := "buy", amount := cfg.lot,
                 price := bp : SimplifiedOrder }]
             else []) ++
            (if can_sell then
              [{ pair := cfg.pair, side := "sell",
                 amount := cfg.lot + btc_amount_remainder,
                 price := sp : SimplifiedOrder }]
             else [])
          pure (wanna, btc_free_amount, jpy_free_amount)) with
        | none => UpdateOutcome.panicked
        | some (wanna, btc_free_amount, jpy_free_amount) =>
          UpdateOutcome.planned wanna active_orders btc_free_amount
            jpy_free_amount cfg.pair

/-! ## Book-side lemmas -/

theorem sorted_applyLevel {m : List (ℚ × ℚ)} (h : SortedMap m)
    (lvl : ℚ × ℚ) : SortedMap (applyLevel m lvl) := by
  rw [applyLevel]
  by_cases h0 : lvl.2 = 0
  · rw [if_pos h0]
    exact sorted_mapRemove h
  · rw [if_neg h0]
    exact sorted_mapInsert h

theorem sorted_applyLevels (levels : List (ℚ × ℚ)) {m : List (ℚ × ℚ)}
    (h : SortedMap m) : SortedMap (applyLevels levels m) := by
  induction levels generalizing m with
  | nil => exact h
  | cons lvl t ih =>
    rw [applyLevels, List.foldl_cons]
    exact ih (sorted_applyLevel h lvl)

theorem applyLevels_append (ls : List (ℚ × ℚ)) (lvl : ℚ × ℚ)
    (m : List (ℚ × ℚ)) :
    applyLevels (ls ++ [lvl]) m = applyLevel (applyLevels ls m) lvl := by
  simp [applyLevels, List.foldl_append]

theorem mapLookup_applyLevel_self {m : List (ℚ × ℚ)} (h : SortedMap m)
    (lvl : ℚ × ℚ) :
    mapLookup lvl.1 (applyLevel m lvl) =
      if lvl.2 = 0 then none else some lvl.2 := by
  rw [applyLevel]
  by_cases h0 : lvl.2 = 0
  · rw [if_pos h0, if_pos h0]
    exact mapLookup_mapRemove_self h
  · rw [if_neg h0, if_neg h0]
    exact mapLookup_mapInsert_self _ _ _

theorem mapLookup_applyLevel_ne {m : List (ℚ × ℚ)} {k : ℚ} (lvl : ℚ × ℚ)
    (hne : k ≠ lvl.1) :
    mapLookup k (applyLevel m lvl) = mapLookup k m := by
  rw [applyLevel]
  by_cases h0 : lvl.2 = 0
  · rw [if_pos h0]
    exact mapLookup_mapRemove_ne hne m
  · rw [if_neg h0]
    exact mapLookup_mapInsert_ne hne _ m

theorem mapLookup_applyLevels (levels : List (ℚ × ℚ)) {m : List (ℚ × ℚ)}
    (h : SortedMap m) (k : ℚ) :
    mapLookup k (applyLevels levels m) =
      match levels.reverse.find? (fun lvl => lvl.1 == k) with
      | some lvl => if lvl.2 = 0 then none else some lvl.2
      | none => mapLookup k m := by
  induction levels using List.reverseRecOn with
  | nil => simp [applyLevels]
  | append_singleton ls lvl ih =>
    rw [applyLevels_append]
    rw [List.reverse_append, List.reverse_singleton, List.singleton_append,
      List.find?_cons]
    by_cases hk : lvl.1 = k
    · subst hk
      simp only [beq_self_eq_true]
      exact mapLookup_applyLevel_self (sorted_applyLevels ls h) lvl
    · have hb : (lvl.1 == k) = false := beq_eq_false_iff_ne.mpr hk
      simp only [hb]
      rw [mapLookup_applyLevel_ne lvl (fun hkk => hk hkk.symm)]
      exact ih

theorem applyLevels_idem (levels : List (ℚ × ℚ)) {m : List (ℚ × ℚ)}
    (h : SortedMap m) :
    applyLevels levels (applyLevels levels m) = applyLevels levels m := by
  refine sortedMap_ext (sorted_applyLevels levels (sorted_applyLevels levels h))
    (sorted_applyLevels levels h) (fun k => ?_)
  have h1 := mapLookup_applyLevels levels (sorted_applyLevels levels h) k
  have h2 := mapLookup_applyLevels levels h k
  cases hfind : levels.reverse.find? (fun lvl => lvl.1 == k) with
  | none =>
    rw [hfind] at h1
    simpa using h1
  | some lvl =>
    rw [hfind] at h1 h2
    exact h1.trans h2.symm

theorem sorted_loadLevels_from (levels : List (ℚ × ℚ)) {m : List (ℚ × ℚ)}
    (h : SortedMap m) :
    SortedMap (levels.foldl (fun m lvl => mapInsert lvl.1 lvl.2 m) m) := by
  induction levels generalizing m with
  | nil => exact h
  | cons lvl t ih =>
    rw [List.foldl_cons]
    exact ih (sorted_mapInsert h)

theorem sorted_loadLevels (levels : List (ℚ × ℚ)) :
    SortedMap (loadLevels levels) :=
  sorted_loadLevels_from levels List.Pairwise.nil

/-- Projections of the `process_diff_buffer` fold: each side is the fold of
the buffered diffs' levels over that side, and every other field is
untouched. -/
theorem processFold_proj (l : List (SeqId × BitbankDepthDiff))
    (st : BitbankDepth) :
    (l.foldl
        (fun s kd =>
          { s with
            asks := applyLevels kd.2.a s.asks
            bids := applyLevels kd.2.b s.bids })
        st) =
      { st with
        asks := l.foldl (fun m kd => applyLevels kd.2.a m) st.asks
        bids := l.foldl (fun m kd => applyLevels kd.2.b m) st.bids } := by
  induction l generalizing st with
  | nil => rfl
  | cons kd t ih =>
    rw [List.foldl_cons, List.foldl_cons, List.foldl_cons]
    exact ih _

theorem sorted_diffFold_asks (l : List (SeqId × BitbankDepthDiff))
    {m : List (ℚ × ℚ)} (h : SortedMap m) :
    SortedMap (l.foldl (fun m kd => applyLevels kd.2.a m) m) := by
  induction l generalizing m with
  | nil => exact h
  | cons kd t ih =>
    rw [List.foldl_cons]
    exact ih (sorted_applyLevels _ h)

theorem sorted_diffFold_bids (l : List (SeqId × BitbankDepthDiff))
    {m : List (ℚ × ℚ)} (h : SortedMap m) :
    SortedMap (l.foldl (fun m kd => applyLevels kd.2.b m) m) := by
  induction l generalizing m with
  | nil => exact h
  | cons kd t ih =>
    rw [List.foldl_cons]
    exact ih (sorted_applyLevels _ h)

theorem depthWF_new : DepthWF BitbankDepth.new := by
  refine ⟨List.Pairwise.nil, List.Pairwise.nil, List.Pairwise.nil, ?_⟩
  intro kd hkd
  simp [BitbankDepth.new] at hkd

theorem depthWF_insert_diff {st : BitbankDepth} (h : DepthWF st)
    (d : BitbankDepthDiff) : DepthWF (st.insert_diff d) := by
  obtain ⟨hbuf, hasks, hbids, hkeys⟩ := h
  refine ⟨sorted_mapInsert hbuf, sorted_applyLevels _ hasks,
    sorted_applyLevels _ hbids, ?_⟩
  intro kd hkd
  rcases mem_mapInsert hkd with h' | h'
  · simp [h']
  · exact hkeys kd h'

theorem depthWF_update_whole {st st' : BitbankDepth}
    (h : DepthWF st) {whole : BitbankDepthWhole}
    (hw : st.update_whole whole = some st') : DepthWF st' := by
  obtain ⟨hbuf, hasks, hbids, hkeys⟩ := h
  rw [BitbankDepth.update_whole] at hw
  by_cases hz : (∀ lvl ∈ whole.asks, lvl.2 ≠ 0) ∧
      (∀ lvl ∈ whole.bids, lvl.2 ≠ 0)
  · rw [if_pos hz] at hw
    obtain rfl := Option.some.inj hw
    rw [BitbankDepth.process_diff_buffer]
    rw [processFold_proj]
    refine ⟨hbuf.filter _, ?_, ?_, ?_⟩
    · exact sorted_diffFold_asks _ (sorted_loadLevels _)
    · exact sorted_diffFold_bids _ (sorted_loadLevels _)
    · intro kd hkd
      exact hkeys kd (List.mem_of_mem_filter hkd)
  · rw [if_neg hz] at hw
    exact Option.noConfusion hw

/-! ## C8 -/

/-- C8: per level, `insert_diff` applies the diff's level lists with the
zero-removes / nonzero-upserts rule, and applying the same diff twice in a
row leaves both book sides exactly as applying it once. -/
theorem insert_diff_upsert_idem (st : BitbankDepth) (d : BitbankDepthDiff)
    (p q : ℚ) (hwf : DepthWF st) (hq : q ≠ 0) :
    ((st.insert_diff d).asks = applyLevels d.a st.asks ∧
      (st.insert_diff d).bids = applyLevels d.b st.bids) ∧
    (mapLookup p (applyLevel st.asks (p, 0)) = none ∧
      mapLookup p (applyLevel st.asks (p, q)) = some q ∧
      mapLookup p (applyLevel st.bids (p, 0)) = none ∧
      mapLookup p (applyLevel st.bids (p, q)) = some q) ∧
    ((st.insert_diff d).insert_diff d).asks = (st.insert_diff d).asks ∧
    ((st.insert_diff d).insert_diff d).bids = (st.insert_diff d).bids := by
  obtain ⟨hbuf, hasks, hbids, hkeys⟩ := hwf
  refine ⟨⟨rfl, rfl⟩, ⟨?_, ?_, ?_, ?_⟩, ?_, ?_⟩
  · simpa using mapLookup_applyLevel_self hasks (p, 0)
  · simpa [hq] using mapLookup_applyLevel_self hasks (p, q)
  · simpa using mapLookup_applyLevel_self hbids (p, 0)
  · simpa [hq] using mapLookup_applyLevel_self hbids (p, q)
  · show applyLevels d.a (applyLevels d.a st.asks) = applyLevels d.a st.asks
    exact applyLevels_idem d.a hasks
  · show applyLevels d.b (applyLevels d.b st.bids) = applyLevels d.b st.bids
    exact applyLevels_idem d.b hbids

/-- A sample diff: one ask upsert, one bid removal, sequence id `"7"`. -/
def exDiff : BitbankDepthDiff :=
  { a := [(101, 2)], b := [(100, 0)], t := 1000, s := ['7'] }

/-- Witness for C8 at a concrete state and diff. -/
theorem insert_diff_upsert_idem_witness :
    DepthWF BitbankDepth.new ∧ (3 : ℚ) ≠ 0 ∧
      (((BitbankDepth.new.insert_diff exDiff).asks =
          applyLevels exDiff.a BitbankDepth.new.asks ∧
        (BitbankDepth.new.insert_diff exDiff).bids =
          applyLevels exDiff.b BitbankDepth.new.bids) ∧
      (mapLookup 5 (applyLevel BitbankDepth.new.asks (5, 0)) = none ∧
        mapLookup 5 (applyLevel BitbankDepth.new.asks (5, 3)) = some 3 ∧
        mapLookup 5 (applyLevel BitbankDepth.new.bids (5, 0)) = none ∧
        mapLookup 5 (applyLevel BitbankDepth.new.bids (5, 3)) = some 3) ∧
      ((BitbankDepth.new.insert_diff exDiff).insert_diff exDiff).asks =
        (BitbankDepth.new.insert_diff exDiff).asks ∧
      ((BitbankDepth.new.insert_diff exDiff).insert_diff exDiff).bids =
        (BitbankDepth.new.insert_diff exDiff).bids) :=
  ⟨depthWF_new, by decide,
    insert_diff_upsert_idem BitbankDepth.new exDiff 5 3 depthWF_new
      (by decide)⟩

/-! ## C7 -/

/-- C7: `sell_price` is the best ask exactly when an own limit sell order
already rests at the best ask or improving by one tick would meet the best
bid, and is best ask minus one tick otherwise; symmetrically for
`buy_price`.  (A zero tick would collapse the two branches, so the genuine
market tick `tick_size ≠ 0` is assumed.) -/
theorem sell_buy_price_spec (orders : List BitbankGetOrderResponse)
    (best_ask_price best_bid_price tick_size : ℚ) (htick : tick_size ≠ 0) :
    (sell_price orders best_ask_price best_bid_price tick_size =
        best_ask_price ↔
      (has_bestask_order orders best_ask_price = true ∨
        best_ask_price - tick_size = best_bid_price)) ∧
    (¬ (has_bestask_order orders best_ask_price = true ∨
        best_ask_price - tick_size = best_bid_price) →
      sell_price orders best_ask_price best_bid_price tick_size =
        best_ask_price - tick_size) ∧
    (buy_price orders best_ask_price best_bid_price tick_size =
        best_bid_price ↔
      (has_bestbid_order orders best_bid_price = true ∨
        best_bid_price + tick_size = best_ask_price)) ∧
    (¬ (has_bestbid_order orders best_bid_price = true ∨
        best_bid_price + tick_size = best_ask_price) →
      buy_price orders best_ask_price best_bid_price tick_size =
        best_bid_price + tick_size) := by
  refine ⟨?_, ?_, ?_, ?_⟩
  · rw [sell_price]
    by_cases hc : has_bestask_order orders best_ask_price = true ∨
        best_ask_price - tick_size = best_bid_price
    · rw [if_pos hc]
      exact ⟨fun _ => hc, fun _ => rfl⟩
    · rw [if_neg hc]
      constructor
      · intro h
        exact absurd (by linarith [sub_eq_self.mp h]) htick
      · intro h
        exact absurd h hc
  · intro hc
    rw [sell_price, if_neg hc]
  · rw [buy_price]
    by_cases hc : has_bestbid_order orders best_bid_price = true ∨
        best_bid_price + tick_size = best_ask_price
    · rw [if_pos hc]
      exact ⟨fun _ => hc, fun _ => rfl⟩
    · rw [if_neg hc]
      constructor
      · intro h
        have : tick_size = 0 := by linarith
        exact absurd this htick
      · intro h
        exact absurd h hc
  · intro hc
    rw [buy_price, if_neg hc]

/-- Witness for C7 at a concrete book: best ask 101, best bid 99, tick 1,
no resting own orders. -/
theorem sell_buy_price_spec_witness :
    (1 : ℚ) ≠ 0 ∧
      ((sell_price [] 101 99 1 = 101 ↔
        (has_bestask_order [] 101 = true ∨ (101 : ℚ) - 1 = 99)) ∧
      (¬ (has_bestask_order [] 101 = true ∨ (101 : ℚ) - 1 = 99) →
        sell_price [] 101 99 1 = 101 - 1) ∧
      (buy_price [] 101 99 1 = 99 ↔
        (has_bestbid_order [] 99 = true ∨ (99 : ℚ) + 1 = 101)) ∧
      (¬ (has_bestbid_order [] 99 = true ∨ (99 : ℚ) + 1 = 101) →
        buy_price [] 101 99 1 = 99 + 1)) :=
  ⟨by norm_num, sell_buy_price_spec [] 101 99 1 (by norm_num)⟩

/-! ## C10 -/

/-- C10: every placement request a successful reconciliation cycle issues —
first or second batch — is a post-only limit order at the corresponding
desired order's price and amount, with no trigger price. -/
theorem placement_requests_post_only_limit
    (wanna_place_orders : List SimplifiedOrder)
    (current_orders : List BitbankGetOrderResponse)
    (btc_free_amount jpy_free_amount : ℚ) (pair : String)
    (plan : ReconcilePlan)
    (hp : place_wanna_orders_concurrent wanna_place_orders current_orders
      btc_free_amount jpy_free_amount pair = some plan) :
    ∀ req ∈ placementRequests pair plan.first_posted_orders
        plan.second_posted_orders,
      req.type = "limit" ∧ req.post_only = some true ∧
      req.trigger_price = none ∧
      ∃ sord, (sord ∈ plan.first_posted_orders ∨
          sord ∈ plan.second_posted_orders) ∧
        req = postReqOf pair sord ∧ req.price = some sord.price ∧
        req.amount = sord.amount ∧ req.side = sord.side := by
  intro req hreq
  rw [placementRequests] at hreq
  rcases List.mem_append.mp hreq with hreq | hreq
  · obtain ⟨sord, hsord, rfl⟩ := List.mem_map.mp hreq
    exact ⟨rfl, rfl, rfl, sord, Or.inl hsord, rfl, rfl, rfl, rfl⟩
  · obtain ⟨sord, hsord, rfl⟩ := List.mem_map.mp hreq
    exact ⟨rfl, rfl, rfl, sord, Or.inr hsord, rfl, rfl, rfl, rfl⟩

/-- A sample desired order: buy 1 at 10 on btc_jpy. -/
def exBuy : SimplifiedOrder :=
  { pair := "btc_jpy", side := "buy", amount := 1, price := 10 }

/-- The plan computed for `[exBuy]` with quote balance 10 and no live
orders: no cancels, `exBuy` in the first batch. -/
def exPlan : ReconcilePlan :=
  { should_cancelled_orderids := []
    first_posted_orders := [exBuy]
    second_posted_orders := [] }

theorem place_wanna_ex_eval :
    place_wanna_orders_concurrent [exBuy] [] 0 10 "btc_jpy" = some exPlan := by
  simp [place_wanna_orders_concurrent, reconcileDiffStep, partitionOrders,
    partitionStep, setInsertBy, exBuy, exPlan, one_mul]

/-- Witness for C10 at a concrete reconciliation cycle. -/
theorem placement_requests_post_only_limit_witness :
    place_wanna_orders_concurrent [exBuy] [] 0 10 "btc_jpy" = some exPlan ∧
      ∀ req ∈ placementRequests "btc_jpy" exPlan.first_posted_orders
          exPlan.second_posted_orders,
        req.type = "limit" ∧ req.post_only = some true ∧
        req.trigger_price = none ∧
        ∃ sord, (sord ∈ exPlan.first_posted_orders ∨
            sord ∈ exPlan.second_posted_orders) ∧
          req = postReqOf "btc_jpy" sord ∧ req.price = some sord.price ∧
          req.amount = sord.amount ∧ req.side = sord.side :=
  ⟨place_wanna_ex_eval,
    placement_requests_post_only_limit [exBuy] [] 0 10 "btc_jpy" exPlan
      place_wanna_ex_eval⟩

/-! ## C4 -/

/-- The `current_sord` a live order is converted to by the diff loop
(its pair, side, parsed remaining amount and parsed price). -/
def sordOf (cur : BitbankGetOrderResponse) (ra p : ℚ) : SimplifiedOrder :=
  { pair := cur.pair, side := cur.side, amount := ra, price := p }

theorem reconcile_cancels_sourced (pair : String)
    (current_orders : List BitbankGetOrderResponse) :
    ∀ (acc res : List SimplifiedOrder × List Nat),
      current_orders.foldlM (reconcileStep pair) acc = some res →
      ∀ oid ∈ res.2, oid ∈ acc.2 ∨
        ∃ cur ∈ current_orders, cur.pair = pair ∧ cur.order_id = oid := by
  induction current_orders with
  | nil =>
    intro acc res h oid hoid
    rw [List.foldlM_nil] at h
    obtain rfl := Option.some.inj h
    exact Or.inl hoid
  | cons cur rest ih =>
    intro acc res h oid hoid
    rw [List.foldlM_cons] at h
    cases hra : cur.remaining_amount with
    | none => simp [reconcileStep, hra] at h
    | some ra =>
      cases hp : cur.price with
      | none => simp [reconcileStep, hra, hp] at h
      | some p =>
        rw [reconcileStep] at h
        simp only [hra, hp, Option.bind_eq_bind, Option.some_bind] at h
        by_cases hc : ¬ sordOf cur ra p ∈ acc.1 ∧ cur.pair = pair
        · unfold sordOf at hc
          rw [if_pos hc] at h
          simp only [Option.pure_def, Option.bind_eq_bind,
            Option.some_bind] at h
          rcases ih _ _ h oid hoid with hin | ⟨c, hc', hcp, hco⟩
          · rcases List.mem_append.mp hin with hin | hin
            · exact Or.inl hin
            · exact Or.inr ⟨cur, by simp, hc.2,
                (List.mem_singleton.mp hin).symm⟩
          · exact Or.inr ⟨c, List.mem_cons_of_mem _ hc', hcp, hco⟩
        · unfold sordOf at hc
          rw [if_neg hc] at h
          simp only [Option.pure_def, Option.bind_eq_bind,
            Option.some_bind] at h
          rcases ih _ _ h oid hoid with hin | ⟨c, hc', hcp, hco⟩
          · exact Or.inl hin
          · exact Or.inr ⟨c, List.mem_cons_of_mem _ hc', hcp, hco⟩

/-- C4: in the diff step, a live order of the traded pair is marked for
cancellation exactly when no structurally equal desired entry exists, and
otherwise consumes (erases) one matching desired entry and is not cancelled;
and every id the whole loop marks for cancellation belongs to a live order of
the traded pair — orders of other pairs are never cancelled. -/
theorem reconcile_diff_step_spec (pair : String) :
    (∀ (wanna : List SimplifiedOrder) (cancels : List Nat)
        (cur : BitbankGetOrderResponse) (ra p : ℚ),
      cur.remaining_amount = some ra → cur.price = some p →
      cur.pair = pair →
      reconcileStep pair (wanna, cancels) cur =
        (if sordOf cur ra p ∈ wanna then
          some (wanna.erase (sordOf cur ra p), cancels)
        else some (wanna, cancels ++ [cur.order_id]))) ∧
    (∀ (wanna : List SimplifiedOrder)
        (current_orders : List BitbankGetOrderResponse)
        (res : List SimplifiedOrder × List Nat),
      reconcileDiffStep wanna current_orders pair = some res →
      ∀ oid ∈ res.2,
        ∃ cur ∈ current_orders, cur.pair = pair ∧ cur.order_id = oid) := by
  constructor
  · intro wanna cancels cur ra p hra hp hpair
    subst hpair
    rw [reconcileStep]
    simp only [hra, hp, Option.bind_eq_bind, Option.some_bind]
    unfold sordOf
    by_cases hm : ({ pair := cur.pair, side := cur.side, amount := ra, price := p } : SimplifiedOrder) ∈ wanna
    · rw [if_neg (by simp [hm]), if_pos hm]
      rfl
    · rw [if_pos (by simp [hm]), if_neg hm]
      rfl
  · intro wanna current_orders res h oid hoid
    rcases reconcile_cancels_sourced pair current_orders (wanna, []) res h
        oid hoid with hin | hsrc
    · simp at hin
    · exact hsrc

/-- A live limit order on btc_jpy: sell 2 at 105, id 44. -/
def exLive : BitbankGetOrderResponse :=
  { order_id := 44, pair := "btc_jpy", side := "sell", type := "limit",
    remaining_amount := some 2, price := some 105 }

/-- Witness for C4: the live order matches no desired entry, so its id is
cancelled; and the whole loop's cancel list is sourced from btc_jpy orders. -/
theorem reconcile_diff_step_spec_witness :
    exLive.remaining_amount = some 2 ∧ exLive.price = some 105 ∧
      exLive.pair = "btc_jpy" ∧
      reconcileStep "btc_jpy" ([exBuy], []) exLive =
        (if sordOf exLive 2 105 ∈ [exBuy] then
          some (([exBuy] : List SimplifiedOrder).erase (sordOf exLive 2 105),
            ([] : List Nat))
        else some ([exBuy], [] ++ [exLive.order_id])) ∧
      reconcileDiffStep [exBuy] [exLive] "btc_jpy" = some ([exBuy], [44]) ∧
      (∀ oid ∈ ([exBuy], [44]).2,
        ∃ cur ∈ [exLive], cur.pair = "btc_jpy" ∧ cur.order_id = oid) :=
  ⟨rfl, rfl, rfl,
    (reconcile_diff_step_spec "btc_jpy").1 [exBuy] [] exLive 2 105 rfl rfl
      rfl,
    by decide,
    (reconcile_diff_step_spec "btc_jpy").2 [exBuy] [exLive] ([exBuy], [44])
      (by decide)⟩

/-! ## C5 -/

/-- A live market order on btc_jpy whose `price` field is absent. -/
def exMarket : BitbankGetOrderResponse :=
  { order_id := 7, pair := "btc_jpy", side := "buy", type := "market",
    remaining_amount := some 1, price := none }

/-- C5 counterexample: the code does not filter by `type == limit` — a market
order (absent `price`) in the current-orders input makes the reconciler fail
(the `.unwrap()` panic, modelled `none`) instead of being skipped. -/
theorem market_order_panics_counterexample :
    reconcileDiffStep [exBuy] [exMarket] "btc_jpy" = none ∧
      place_wanna_orders_concurrent [exBuy] [exMarket] 0 10 "btc_jpy" =
        none := by
  constructor
  · decide
  · rfl

/-- C5 amended: the reconciler compares every live order regardless of its
`type`; a live order whose `price` or `remaining_amount` is absent (as for a
market order) makes the whole diff step fail (panic), and a live order with
both fields present participates identically whatever its `type` string is. -/
theorem reconcile_ignores_type_but_unwraps (pair : String)
    (wanna : List SimplifiedOrder)
    (cur : BitbankGetOrderResponse)
    (rest : List BitbankGetOrderResponse) :
    (cur.price = none ∨ cur.remaining_amount = none →
      reconcileDiffStep wanna (cur :: rest) pair = none) ∧
    (∀ t₁ t₂ : String,
      reconcileDiffStep wanna ({ cur with type := t₁ } :: rest) pair =
      reconcileDiffStep wanna ({ cur with type := t₂ } :: rest) pair) := by
  constructor
  · intro habs
    rw [reconcileDiffStep, List.foldlM_cons]
    rcases habs with habs | habs
    · cases hra : cur.remaining_amount with
      | none => simp [reconcileStep, hra]
      | some ra => simp [reconcileStep, hra, habs]
    · simp [reconcileStep, habs]
  · intro t₁ t₂
    rfl

/-- Witness for C5's amended statement at the concrete market order. -/
theorem reconcile_ignores_type_but_unwraps_witness :
    (exMarket.price = none ∨ exMarket.remaining_amount = none) ∧
      reconcileDiffStep [exBuy] [exMarket] "btc_jpy" = none ∧
      reconcileDiffStep [exBuy] [{ exMarket with type := "market" }]
          "btc_jpy" =
        reconcileDiffStep [exBuy] [{ exMarket with type := "limit" }]
          "btc_jpy" :=
  ⟨Or.inl rfl,
    (reconcile_ignores_type_but_unwraps "btc_jpy" [exBuy] exMarket []).1
      (Or.inl rfl),
    (reconcile_ignores_type_but_unwraps "btc_jpy" [exBuy] exMarket []).2
      "market" "limit"⟩

/-! ## Partition-loop lemmas (C3, C9) -/

theorem setInsertBy_eq_of_mem {α β : Type} [LinearOrder β] {key : α → β}
    {x : α} {l : List α} (hl : SortedSetBy key l) (hx : x ∈ l) :
    setInsertBy key x l = l := by
  induction l with
  | nil => simp at hx
  | cons hd t ih =>
    have hhd : ∀ y ∈ t, key hd < key y :=
      fun y hy => List.rel_of_pairwise_cons hl hy
    rw [setInsertBy_cons]
    rcases List.mem_cons.mp hx with hx' | hx'
    · subst hx'
      rw [if_neg (lt_irrefl _), if_pos rfl]
    · have hlt : key hd < key x := hhd x hx'
      rw [if_neg (not_lt.mpr (le_of_lt hlt)),
        if_neg (ne_of_gt hlt), ih (List.Pairwise.of_cons hl) hx']

theorem setInsertBy_perm_of_not_mem {α β : Type} [LinearOrder β]
    {key : α → β} (hinj : Function.Injective key) {x : α} {l : List α}
    (hx : x ∉ l) : (setInsertBy key x l).Perm (x :: l) := by
  induction l with
  | nil => simp [setInsertBy]
  | cons hd t ih =>
    have hxhd : x ≠ hd := fun h => hx (by simp [h])
    have hxt : x ∉ t := fun h => hx (List.mem_cons_of_mem _ h)
    rw [setInsertBy_cons]
    by_cases h1 : key x < key hd
    · rw [if_pos h1]
    · rw [if_neg h1]
      by_cases h2 : key x = key hd
      · exact absurd (hinj h2) hxhd
      · rw [if_neg h2]
        exact (List.Perm.cons hd (ih hxt)).trans (List.Perm.swap x hd t)

/-- The quote capital the buy orders of a list require:
`amount * price` summed over its buy entries. -/
def buyCost (l : List SimplifiedOrder) : ℚ :=
  (l.map (fun o => if o.side = "buy" then o.amount * o.price else 0)).sum

/-- The base capital the sell orders of a list require:
`amount` summed over its sell entries. -/
def sellBase (l : List SimplifiedOrder) : ℚ :=
  (l.map (fun o => if o.side = "sell" then o.amount else 0)).sum

theorem buyCost_cons (o : SimplifiedOrder) (l : List SimplifiedOrder) :
    buyCost (o :: l) =
      (if o.side = "buy" then o.amount * o.price else 0) + buyCost l := by
  simp [buyCost]

theorem sellBase_cons (o : SimplifiedOrder) (l : List SimplifiedOrder) :
    sellBase (o :: l) =
      (if o.side = "sell" then o.amount else 0) + sellBase l := by
  simp [sellBase]

theorem buyCost_perm {l₁ l₂ : List SimplifiedOrder} (h : l₁.Perm l₂) :
    buyCost l₁ = buyCost l₂ :=
  (h.map _).sum_eq

theorem sellBase_perm {l₁ l₂ : List SimplifiedOrder} (h : l₁.Perm l₂) :
    sellBase l₁ = sellBase l₂ :=
  (h.map _).sum_eq

theorem buyCost_setInsertBy {x : SimplifiedOrder} {l : List SimplifiedOrder}
    (hl : SortedSetBy sordKey l) :
    buyCost (setInsertBy sordKey x l) = buyCost l ∨
      buyCost (setInsertBy sordKey x l) =
        (if x.side = "buy" then x.amount * x.price else 0) + buyCost l := by
  by_cases hx : x ∈ l
  · exact Or.inl (by rw [setInsertBy_eq_of_mem hl hx])
  · refine Or.inr ?_
    rw [buyCost_perm (setInsertBy_perm_of_not_mem sordKey_injective hx),
      buyCost_cons]

theorem sellBase_setInsertBy {x : SimplifiedOrder} {l : List SimplifiedOrder}
    (hl : SortedSetBy sordKey l) :
    sellBase (setInsertBy sordKey x l) = sellBase l ∨
      sellBase (setInsertBy sordKey x l) =
        (if x.side = "sell" then x.amount else 0) + sellBase l := by
  by_cases hx : x ∈ l
  · exact Or.inl (by rw [setInsertBy_eq_of_mem hl hx])
  · refine Or.inr ?_
    rw [sellBase_perm (setInsertBy_perm_of_not_mem sordKey_injective hx),
      sellBase_cons]

theorem partitionStep_cases (st : PartitionState) (o : SimplifiedOrder)
    (st₁ : PartitionState) (h : partitionStep st o = some st₁) :
    (o.side = "buy" ∧ st.next_jpy_free_amount ≥ o.amount * o.price ∧
      st₁ = { st with first_posted_orders := setInsertBy sordKey o st.first_posted_orders, next_jpy_free_amount := st.next_jpy_free_amount - o.amount * o.price }) ∨
    (o.side = "buy" ∧ ¬ st.next_jpy_free_amount ≥ o.amount * o.price ∧
      st₁ = { st with second_posted_orders := setInsertBy sordKey o st.second_posted_orders }) ∨
    (o.side = "sell" ∧ st.next_btc_free_amount ≥ o.amount ∧
      st₁ = { st with first_posted_orders := setInsertBy sordKey o st.first_posted_orders, next_btc_free_amount := st.next_btc_free_amount - o.amount }) ∨
    (o.side = "sell" ∧ ¬ st.next_btc_free_amount ≥ o.amount ∧
      st₁ = { st with second_posted_orders := setInsertBy sordKey o st.second_posted_orders }) := by
  rw [partitionStep] at h
  by_cases hbuy : o.side = "buy"
  · rw [if_pos hbuy] at h
    by_cases hge : st.next_jpy_free_amount ≥ o.amount * o.price
    · rw [if_pos hge] at h
      exact Or.inl ⟨hbuy, hge, (Option.some.inj h).symm⟩
    · rw [if_neg hge] at h
      exact Or.inr (Or.inl ⟨hbuy, hge, (Option.some.inj h).symm⟩)
  · rw [if_neg hbuy] at h
    by_cases hsell : o.side = "sell"
    · rw [if_pos hsell] at h
      by_cases hge : st.next_btc_free_amount ≥ o.amount
      · rw [if_pos hge] at h
        exact Or.inr (Or.inr (Or.inl ⟨hsell, hge, (Option.some.inj h).symm⟩))
      · rw [if_neg hge] at h
        exact Or.inr (Or.inr (Or.inr ⟨hsell, hge,
          (Option.some.inj h).symm⟩))
    · rw [if_neg hsell] at h
      exact Option.noConfusion h

theorem partitionStep_sets {st : PartitionState} {o : SimplifiedOrder}
    {st₁ : PartitionState} (h : partitionStep st o = some st₁) :
    (st₁.first_posted_orders =
        setInsertBy sordKey o st.first_posted_orders ∧
      st₁.second_posted_orders = st.second_posted_orders) ∨
    (st₁.first_posted_orders = st.first_posted_orders ∧
      st₁.second_posted_orders =
        setInsertBy sordKey o st.second_posted_orders) := by
  rcases partitionStep_cases st o st₁ h with ⟨_, _, rfl⟩ | ⟨_, _, rfl⟩ |
    ⟨_, _, rfl⟩ | ⟨_, _, rfl⟩
  · exact Or.inl ⟨rfl, rfl⟩
  · exact Or.inr ⟨rfl, rfl⟩
  · exact Or.inl ⟨rfl, rfl⟩
  · exact Or.inr ⟨rfl, rfl⟩

theorem partitionFold_budget (orders : List SimplifiedOrder) :
    ∀ (st st' : PartitionState),
      orders.foldlM partitionStep st = some st' →
      SortedSetBy sordKey st.first_posted_orders →
      SortedSetBy sordKey st.second_posted_orders →
      (∀ o ∈ orders, 0 ≤ o.amount ∧ 0 ≤ o.price) →
      SortedSetBy sordKey st'.first_posted_orders ∧
      SortedSetBy sordKey st'.second_posted_orders ∧
      buyCost st'.first_posted_orders + st'.next_jpy_free_amount ≤
        buyCost st.first_posted_orders + st.next_jpy_free_amount ∧
      sellBase st'.first_posted_orders + st'.next_btc_free_amount ≤
        sellBase st.first_posted_orders + st.next_btc_free_amount ∧
      (0 ≤ st.next_jpy_free_amount → 0 ≤ st'.next_jpy_free_amount) ∧
      (0 ≤ st.next_btc_free_amount → 0 ≤ st'.next_btc_free_amount) := by
  induction orders with
  | nil =>
    intro st st' h h1 h2 _
    rw [List.foldlM_nil] at h
    obtain rfl := Option.some.inj h
    exact ⟨h1, h2, le_refl _, le_refl _, fun h => h, fun h => h⟩
  | cons o rest ih =>
    intro st st' h h1 h2 hpos
    rw [List.foldlM_cons] at h
    cases hstep : partitionStep st o with
    | none => rw [hstep] at h; simp at h
    | some st₁ =>
      rw [hstep] at h
      simp only [Option.bind_eq_bind, Option.some_bind] at h
      have hposo := hpos o (by simp)
      have hposr : ∀ x ∈ rest, 0 ≤ x.amount ∧ 0 ≤ x.price :=
        fun x hx => hpos x (List.mem_cons_of_mem _ hx)
      have hc : 0 ≤ o.amount * o.price := mul_nonneg hposo.1 hposo.2
      rcases partitionStep_cases st o st₁ hstep with ⟨hside, hge, rfl⟩ |
        ⟨hside, hge, rfl⟩ | ⟨hside, hge, rfl⟩ | ⟨hside, hge, rfl⟩
      · obtain ⟨s1, s2, hb, hs, hj, hbt⟩ :=
          ih _ _ h (sorted_setInsertBy h1) h2 hposr
        dsimp only at hb hs hj hbt
        refine ⟨s1, s2, ?_, ?_, ?_, ?_⟩
        · rcases buyCost_setInsertBy (x := o) h1 with heq | heq
          · rw [heq] at hb
            linarith
          · rw [heq, if_pos hside] at hb
            linarith
        · rcases sellBase_setInsertBy (x := o) h1 with heq | heq
          · rw [heq] at hs
            exact hs
          · rw [heq,
              show (if o.side = "sell" then o.amount else 0) = 0 from by
                rw [hside]; rfl] at hs
            linarith
        · exact fun _ => hj (sub_nonneg.mpr hge)
        · exact fun hh => hbt hh
      · obtain ⟨s1, s2, hb, hs, hj, hbt⟩ :=
          ih _ _ h h1 (sorted_setInsertBy h2) hposr
        dsimp only at hb hs hj hbt
        exact ⟨s1, s2, hb, hs, hj, hbt⟩
      · obtain ⟨s1, s2, hb, hs, hj, hbt⟩ :=
          ih _ _ h (sorted_setInsertBy h1) h2 hposr
        dsimp only at hb hs hj hbt
        refine ⟨s1, s2, ?_, ?_, ?_, ?_⟩
        · rcases buyCost_setInsertBy (x := o) h1 with heq | heq
          · rw [heq] at hb
            exact hb
          · rw [heq,
              show (if o.side = "buy" then o.amount * o.price else 0) = 0
                from by rw [hside]; rfl] at hb
            linarith
        · rcases sellBase_setInsertBy (x := o) h1 with heq | heq
          · rw [heq] at hs
            linarith [hposo.1]
          · rw [heq, if_pos hside] at hs
            linarith
        · exact fun hh => hj hh
        · exact fun _ => hbt (sub_nonneg.mpr hge)
      · obtain ⟨s1, s2, hb, hs, hj, hbt⟩ :=
          ih _ _ h h1 (sorted_setInsertBy h2) hposr
        dsimp only at hb hs hj hbt
        exact ⟨s1, s2, hb, hs, hj, hbt⟩

theorem partitionFold_mem (orders : List SimplifiedOrder) :
    ∀ (st st' : PartitionState),
      orders.foldlM partitionStep st = some st' →
      (∀ x, x ∈ st.first_posted_orders → x ∈ st'.first_posted_orders) ∧
      (∀ x, x ∈ st.second_posted_orders → x ∈ st'.second_posted_orders) ∧
      (∀ x ∈ orders,
        x ∈ st'.first_posted_orders ∨ x ∈ st'.second_posted_orders) ∧
      (∀ x, x ∈ st'.first_posted_orders →
        x ∈ st.first_posted_orders ∨ x ∈ orders) ∧
      (∀ x, x ∈ st'.second_posted_orders →
        x ∈ st.second_posted_orders ∨ x ∈ orders) := by
  induction orders with
  | nil =>
    intro st st' h
    rw [List.foldlM_nil] at h
    obtain rfl := Option.some.inj h
    exact ⟨fun x hx => hx, fun x hx => hx, fun x hx => absurd hx (by simp),
      fun x hx => Or.inl hx, fun x hx => Or.inl hx⟩
  | cons o rest ih =>
    intro st st' h
    rw [List.foldlM_cons] at h
    cases hstep : partitionStep st o with
    | none => rw [hstep] at h; simp at h
    | some st₁ =>
      rw [hstep] at h
      simp only [Option.bind_eq_bind, Option.some_bind] at h
      obtain ⟨m1, m2, mo, p1, p2⟩ := ih st₁ st' h
      rcases partitionStep_sets hstep with ⟨hfs, hs⟩ | ⟨hfs, hs⟩
      · refine ⟨?_, ?_, ?_, ?_, ?_⟩
        · intro x hx
          exact m1 x (by rw [hfs]; exact mem_setInsertBy_of_mem o hx)
        · intro x hx
          exact m2 x (by rw [hs]; exact hx)
        · intro x hx
          rcases List.mem_cons.mp hx with hx' | hx'
          · subst hx'
            exact Or.inl (m1 x (by
              rw [hfs]
              exact self_mem_setInsertBy sordKey_injective x _))
          · exact mo x hx'
        · intro x hx
          rcases p1 x hx with hx' | hx'
          · rw [hfs] at hx'
            rcases mem_setInsertBy hx' with hx'' | hx''
            · exact Or.inr (by simp [hx''])
            · exact Or.inl hx''
          · exact Or.inr (List.mem_cons_of_mem _ hx')
        · intro x hx
          rcases p2 x hx with hx' | hx'
          · rw [hs] at hx'
            exact Or.inl hx'
          · exact Or.inr (List.mem_cons_of_mem _ hx')
      · refine ⟨?_, ?_, ?_, ?_, ?_⟩
        · intro x hx
          exact m1 x (by rw [hfs]; exact hx)
        · intro x hx
          exact m2 x (by rw [hs]; exact mem_setInsertBy_of_mem o hx)
        · intro x hx
          rcases List.mem_cons.mp hx with hx' | hx'
          · subst hx'
            exact Or.inr (m2 x (by
              rw [hs]
              exact self_mem_setInsertBy sordKey_injective x _))
          · exact mo x hx'
        · intro x hx
          rcases p1 x hx with hx' | hx'
          · rw [hfs] at hx'
            exact Or.inl hx'
          · exact Or.inr (List.mem_cons_of_mem _ hx')
        · intro x hx
          rcases p2 x hx with hx' | hx'
          · rw [hs] at hx'
            rcases mem_setInsertBy hx' with hx'' | hx''
            · exact Or.inr (by simp [hx''])
            · exact Or.inl hx''
          · exact Or.inr (List.mem_cons_of_mem _ hx')

theorem partitionFold_disjoint (orders : List SimplifiedOrder) :
    ∀ (st st' : PartitionState),
      orders.foldlM partitionStep st = some st' →
      orders.Nodup →
      (∀ x, ¬ (x ∈ st.first_posted_orders ∧ x ∈ st.second_posted_orders)) →
      (∀ x ∈ orders,
        x ∉ st.first_posted_orders ∧ x ∉ st.second_posted_orders) →
      ∀ x, ¬ (x ∈ st'.first_posted_orders ∧ x ∈ st'.second_posted_orders) := by
  induction orders with
  | nil =>
    intro st st' h _ hdisj _
    rw [List.foldlM_nil] at h
    obtain rfl := Option.some.inj h
    exact hdisj
  | cons o rest ih =>
    intro st st' h hnd hdisj hfresh
    rw [List.foldlM_cons] at h
    cases hstep : partitionStep st o with
    | none => rw [hstep] at h; simp at h
    | some st₁ =>
      rw [hstep] at h
      simp only [Option.bind_eq_bind, Option.some_bind] at h
      have hndr : rest.Nodup := (List.nodup_cons.mp hnd).2
      have honr : o ∉ rest := (List.nodup_cons.mp hnd).1
      have ho := hfresh o (by simp)
      rcases partitionStep_sets hstep with ⟨hfs, hs⟩ | ⟨hfs, hs⟩
      · refine ih st₁ st' h hndr ?_ ?_
        · intro x ⟨hx1, hx2⟩
          rw [hfs] at hx1
          rw [hs] at hx2
          rcases mem_setInsertBy hx1 with hx' | hx'
          · subst hx'
            exact ho.2 hx2
          · exact hdisj x ⟨hx', hx2⟩
        · intro x hx
          have hxo : x ≠ o := fun hh => honr (hh ▸ hx)
          have hf := hfresh x (List.mem_cons_of_mem _ hx)
          constructor
          · rw [hfs]
            intro hx'
            rcases mem_setInsertBy hx' with hx'' | hx''
            · exact hxo hx''
            · exact hf.1 hx''
          · rw [hs]
            exact hf.2
      · refine ih st₁ st' h hndr ?_ ?_
        · intro x ⟨hx1, hx2⟩
          rw [hfs] at hx1
          rw [hs] at hx2
          rcases mem_setInsertBy hx2 with hx' | hx'
          · subst hx'
            exact ho.1 hx1
          · exact hdisj x ⟨hx1, hx'⟩
        · intro x hx
          have hxo : x ≠ o := fun hh => honr (hh ▸ hx)
          have hf := hfresh x (List.mem_cons_of_mem _ hx)
          constructor
          · rw [hfs]
            exact hf.1
          · rw [hs]
            intro hx'
            rcases mem_setInsertBy hx' with hx'' | hx''
            · exact hxo hx''
            · exact hf.2 hx''

/-! ## C3 -/

/-- C3 (amended): for a duplicate-free remaining desired list with
non-negative amounts and prices and non-negative starting balances, the
first batch's buy orders require at most the starting quote balance, its
sell orders at most the starting base balance, and the two batches
partition the remaining desired orders exactly. -/
theorem partition_capital_spec (orders : List SimplifiedOrder)
    (btc_free_amount jpy_free_amount : ℚ)
    (first second : List SimplifiedOrder)
    (h : partitionOrders orders btc_free_amount jpy_free_amount =
      some (first, second))
    (hjpy : 0 ≤ jpy_free_amount) (hbtc : 0 ≤ btc_free_amount)
    (hpos : ∀ o ∈ orders, 0 ≤ o.amount ∧ 0 ≤ o.price)
    (hnodup : orders.Nodup) :
    buyCost first ≤ jpy_free_amount ∧ sellBase first ≤ btc_free_amount ∧
    (∀ x, x ∈ orders ↔ (x ∈ first ∨ x ∈ second)) ∧
    (∀ x, ¬ (x ∈ first ∧ x ∈ second)) := by
  rw [partitionOrders] at h
  obtain ⟨stF, hfold, hpr⟩ := Option.map_eq_some'.mp h
  obtain ⟨hf, hsnd⟩ : stF.first_posted_orders = first ∧
      stF.second_posted_orders = second := by
    have := congrArg Prod.fst hpr
    have h2 := congrArg Prod.snd hpr
    exact ⟨this, h2⟩
  obtain ⟨s1, s2, hb, hs, hj, hbt⟩ :=
    partitionFold_budget orders _ _ hfold List.Pairwise.nil
      List.Pairwise.nil hpos
  obtain ⟨m1, m2, mo, p1, p2⟩ := partitionFold_mem orders _ _ hfold
  have hdis := partitionFold_disjoint orders _ _ hfold hnodup
    (fun x hx => by simp at hx) (fun x _ => by simp)
  dsimp only at hb hs hj hbt mo p1 p2 hdis
  rw [hf] at hb hs mo p1 hdis
  rw [hsnd] at mo p2 hdis
  refine ⟨?_, ?_, ?_, hdis⟩
  · have h0 : buyCost [] = 0 := rfl
    have := hj hjpy
    rw [h0] at hb
    linarith
  · have h0 : sellBase [] = 0 := rfl
    have := hbt hbtc
    rw [h0] at hs
    linarith
  · intro x
    constructor
    · exact mo x
    · intro hx
      rcases hx with hx | hx
      · rcases p1 x hx with hx' | hx'
        · simp at hx'
        · exact hx'
      · rcases p2 x hx with hx' | hx'
        · simp at hx'
        · exact hx'

/-- C3 counterexample: with the desired list containing the same order twice
and quote balance covering only one copy, the order lands in **both**
batches — the batches do not partition the desired orders exactly once. -/
theorem partition_duplicate_counterexample :
    partitionOrders [exBuy, exBuy] 0 10 = some ([exBuy], [exBuy]) ∧
      ¬ (∀ first second : List SimplifiedOrder,
        partitionOrders [exBuy, exBuy] 0 10 = some (first, second) →
        ∀ x, ¬ (x ∈ first ∧ x ∈ second)) := by
  have heval : partitionOrders [exBuy, exBuy] 0 10 =
      some ([exBuy], [exBuy]) := by
    simp only [partitionOrders, partitionStep, setInsertBy, exBuy,
      List.foldlM_cons, List.foldlM_nil, Option.map_eq_some', one_mul]
    simp
    rw [if_neg (by norm_num)]
    exact ⟨_, rfl, rfl, rfl⟩
  refine ⟨heval, fun hall => ?_⟩
  exact hall [exBuy] [exBuy] heval exBuy ⟨by simp, by simp⟩

/-- A sample desired sell order: sell 2 at 105 on btc_jpy. -/
def exSell : SimplifiedOrder :=
  { pair := "btc_jpy", side := "sell", amount := 2, price := 105 }

theorem partition_ex_eval :
    partitionOrders [exBuy, exSell] 0 10 = some ([exBuy], [exSell]) := by
  simp [partitionOrders, partitionStep, setInsertBy, exBuy, exSell, one_mul]
  rw [if_neg (by norm_num)]
  exact ⟨_, rfl, rfl, rfl⟩

/-- Witness for C3's amended statement: buy 1@10 fits the quote balance 10,
sell 2 does not fit the base balance 0 and is deferred. -/
theorem partition_capital_spec_witness :
    partitionOrders [exBuy, exSell] 0 10 = some ([exBuy], [exSell]) ∧
      (0 : ℚ) ≤ 10 ∧ (0 : ℚ) ≤ 0 ∧
      (∀ o ∈ [exBuy, exSell], 0 ≤ o.amount ∧ 0 ≤ o.price) ∧
      ([exBuy, exSell] : List SimplifiedOrder).Nodup ∧
      (buyCost [exBuy] ≤ 10 ∧ sellBase [exBuy] ≤ 0 ∧
        (∀ x, x ∈ [exBuy, exSell] ↔ (x ∈ [exBuy] ∨ x ∈ [exSell])) ∧
        (∀ x, ¬ (x ∈ [exBuy] ∧ x ∈ [exSell]))) :=
  ⟨partition_ex_eval, by norm_num, le_refl 0, by decide, by decide,
    partition_capital_spec [exBuy, exSell] 0 10 [exBuy] [exSell]
      partition_ex_eval (by norm_num) (le_refl 0) (by decide) (by decide)⟩

/-! ## C9 -/

theorem reconcile_remaining_sublist (pair : String)
    (current_orders : List BitbankGetOrderResponse) :
    ∀ (acc res : List SimplifiedOrder × List Nat),
      current_orders.foldlM (reconcileStep pair) acc = some res →
      res.1.Sublist acc.1 := by
  induction current_orders with
  | nil =>
    intro acc res h
    rw [List.foldlM_nil] at h
    obtain rfl := Option.some.inj h
    exact List.Sublist.refl _
  | cons cur rest ih =>
    intro acc res h
    rw [List.foldlM_cons] at h
    cases hra : cur.remaining_amount with
    | none => simp [reconcileStep, hra] at h
    | some ra =>
      cases hp : cur.price with
      | none => simp [reconcileStep, hra, hp] at h
      | some p =>
        rw [reconcileStep] at h
        simp only [hra, hp, Option.bind_eq_bind, Option.some_bind] at h
        by_cases hc : ¬ sordOf cur ra p ∈ acc.1 ∧ cur.pair = pair
        · unfold sordOf at hc
          rw [if_pos hc] at h
          simp only [Option.pure_def, Option.bind_eq_bind,
            Option.some_bind] at h
          exact ih (acc.1, acc.2 ++ [cur.order_id]) res h
        · unfold sordOf at hc
          rw [if_neg hc] at h
          simp only [Option.pure_def, Option.bind_eq_bind,
            Option.some_bind] at h
          exact (ih (acc.1.erase
            { pair := cur.pair, side := cur.side, amount := ra, price := p },
            acc.2) res h).trans (List.erase_sublist _ _)

theorem postReqOf_inj_on {pair : String} {a b : SimplifiedOrder}
    (ha : a.pair = pair) (hb : b.pair = pair)
    (h : postReqOf pair a = postReqOf pair b) : a = b := by
  have hpp : a.pair = b.pair := by rw [ha, hb]
  obtain ⟨pa, sa, aa, ra⟩ := a
  obtain ⟨pb, sb, ab, rb⟩ := b
  simp only at hpp
  subst hpp
  simp only [postReqOf, PostOrderReq.mk.injEq] at h
  simp_all [SimplifiedOrder.mk.injEq]

/-- The reconciliation plan `place_wanna_orders_concurrent` computes in a
successful run, with the diff-step and partition results exposed. -/
theorem place_wanna_run (wanna_place_orders : List SimplifiedOrder)
    (current_orders : List BitbankGetOrderResponse)
    (btc_free_amount jpy_free_amount : ℚ) (pair : String)
    (plan : ReconcilePlan)
    (h : place_wanna_orders_concurrent wanna_place_orders current_orders
      btc_free_amount jpy_free_amount pair = some plan) :
    ∃ remaining cancels,
      reconcileDiffStep wanna_place_orders current_orders pair =
        some (remaining, cancels) ∧
      partitionOrders remaining btc_free_amount jpy_free_amount =
        some (plan.first_posted_orders, plan.second_posted_orders) ∧
      plan.should_cancelled_orderids = cancels := by
  rw [place_wanna_orders_concurrent] at h
  cases hrd : reconcileDiffStep wanna_place_orders current_orders pair with
  | none => rw [hrd] at h; simp at h
  | some rc =>
    obtain ⟨remaining, cancels⟩ := rc
    rw [hrd] at h
    simp only [Option.bind_eq_bind, Option.some_bind] at h
    cases hpo : partitionOrders remaining btc_free_amount jpy_free_amount with
    | none => rw [hpo] at h; simp at h
    | some fs =>
      obtain ⟨first, second⟩ := fs
      rw [hpo] at h
      simp only [Option.bind_eq_bind, Option.some_bind,
        Option.pure_def] at h
      obtain rfl := Option.some.inj h
      exact ⟨remaining, cancels, rfl, hpo, rfl⟩

theorem partitionFold_sorted (orders : List SimplifiedOrder) :
    ∀ (st st' : PartitionState),
      orders.foldlM partitionStep st = some st' →
      SortedSetBy sordKey st.first_posted_orders →
      SortedSetBy sordKey st.second_posted_orders →
      SortedSetBy sordKey st'.first_posted_orders ∧
      SortedSetBy sordKey st'.second_posted_orders := by
  induction orders with
  | nil =>
    intro st st' h h1 h2
    rw [List.foldlM_nil] at h
    obtain rfl := Option.some.inj h
    exact ⟨h1, h2⟩
  | cons o rest ih =>
    intro st st' h h1 h2
    rw [List.foldlM_cons] at h
    cases hstep : partitionStep st o with
    | none => rw [hstep] at h; simp at h
    | some st₁ =>
      rw [hstep] at h
      simp only [Option.bind_eq_bind, Option.some_bind] at h
      rcases partitionStep_sets hstep with ⟨hfs, hs⟩ | ⟨hfs, hs⟩
      · exact ih st₁ st' h (hfs ▸ sorted_setInsertBy h1) (hs ▸ h2)
      · exact ih st₁ st' h (hfs ▸ h1) (hs ▸ sorted_setInsertBy h2)

/-- C9 (amended): within each batch, structurally identical desired orders
collapse to a single entry (each batch is duplicate-free), so at most one
placement request per batch is issued for any given order — but the two
copies of a duplicated desired order can split across the two batches, so
up to two requests in total may be issued for it. -/
theorem placement_requests_dedup
    (wanna_place_orders : List SimplifiedOrder)
    (current_orders : List BitbankGetOrderResponse)
    (btc_free_amount jpy_free_amount : ℚ) (pair : String)
    (plan : ReconcilePlan)
    (h : place_wanna_orders_concurrent wanna_place_orders current_orders
      btc_free_amount jpy_free_amount pair = some plan)
    (hpair : ∀ o ∈ wanna_place_orders, o.pair = pair)
    (x : SimplifiedOrder) :
    plan.first_posted_orders.count x ≤ 1 ∧
    plan.second_posted_orders.count x ≤ 1 ∧
    (placementRequests pair plan.first_posted_orders
      plan.second_posted_orders).count (postReqOf pair x) ≤ 2 := by
  obtain ⟨remaining, cancels, hrd, hpo, _⟩ :=
    place_wanna_run _ _ _ _ _ _ h
  have hrem : ∀ o ∈ remaining, o.pair = pair := fun o ho =>
    hpair o ((reconcile_remaining_sublist pair current_orders _ _
      hrd).mem ho)
  rw [partitionOrders] at hpo
  obtain ⟨stF, hfold, hpr⟩ := Option.map_eq_some'.mp hpo
  have hf : stF.first_posted_orders = plan.first_posted_orders :=
    congrArg Prod.fst hpr
  have hsnd : stF.second_posted_orders = plan.second_posted_orders :=
    congrArg Prod.snd hpr
  obtain ⟨s1, s2⟩ := partitionFold_sorted remaining _ _ hfold
    List.Pairwise.nil List.Pairwise.nil
  rw [hf] at s1
  rw [hsnd] at s2
  have hnd1 := nodup_of_sortedSetBy s1
  have hnd2 := nodup_of_sortedSetBy s2
  obtain ⟨_, _, _, p1, p2⟩ := partitionFold_mem remaining _ _ hfold
  dsimp only at p1 p2
  rw [hf] at p1
  rw [hsnd] at p2
  have hin1 : ∀ a ∈ plan.first_posted_orders, a.pair = pair := by
    intro a ha
    rcases p1 a ha with ha' | ha'
    · simp at ha'
    · exact hrem a ha'
  have hin2 : ∀ a ∈ plan.second_posted_orders, a.pair = pair := by
    intro a ha
    rcases p2 a ha with ha' | ha'
    · simp at ha'
    · exact hrem a ha'
  have hmap1 : (plan.first_posted_orders.map (postReqOf pair)).Nodup :=
    hnd1.map_on (fun a ha b hb hab =>
      postReqOf_inj_on (hin1 a ha) (hin1 b hb) hab)
  have hmap2 : (plan.second_posted_orders.map (postReqOf pair)).Nodup :=
    hnd2.map_on (fun a ha b hb hab =>
      postReqOf_inj_on (hin2 a ha) (hin2 b hb) hab)
  refine ⟨List.nodup_iff_count_le_one.mp hnd1 x,
    List.nodup_iff_count_le_one.mp hnd2 x, ?_⟩
  rw [placementRequests, List.count_append]
  have t1 := List.nodup_iff_count_le_one.mp hmap1 (postReqOf pair x)
  have t2 := List.nodup_iff_count_le_one.mp hmap2 (postReqOf pair x)
  omega

theorem place_wanna_dup_eval :
    place_wanna_orders_concurrent [exBuy, exBuy] [] 0 10 "btc_jpy" =
      some { should_cancelled_orderids := [],
             first_posted_orders := [exBuy],
             second_posted_orders := [exBuy] } := by
  rw [place_wanna_orders_concurrent]
  have hrd : reconcileDiffStep [exBuy, exBuy] [] "btc_jpy" =
      some ([exBuy, exBuy], []) := rfl
  rw [hrd]
  simp only [Option.bind_eq_bind, Option.some_bind]
  have hpo : partitionOrders [exBuy, exBuy] 0 10 =
      some ([exBuy], [exBuy]) := by
    simp only [partitionOrders, partitionStep, setInsertBy, exBuy,
      List.foldlM_cons, List.foldlM_nil, Option.map_eq_some', one_mul]
    simp
    rw [if_neg (by norm_num)]
    exact ⟨_, rfl, rfl, rfl⟩
  rw [hpo]
  rfl

/-- C9 counterexample: the desired list `[exBuy, exBuy]` with quote balance
covering one copy yields `exBuy` in both batches, and two identical
placement requests are issued for it — not at most one. -/
theorem duplicate_desired_two_requests_counterexample :
    place_wanna_orders_concurrent [exBuy, exBuy] [] 0 10 "btc_jpy" =
      some { should_cancelled_orderids := [],
             first_posted_orders := [exBuy],
             second_posted_orders := [exBuy] } ∧
      (placementRequests "btc_jpy" [exBuy] [exBuy]).count
        (postReqOf "btc_jpy" exBuy) = 2 :=
  ⟨place_wanna_dup_eval, by decide⟩

/-- Witness for C9's amended statement at the duplicated desired list. -/
theorem placement_requests_dedup_witness :
    place_wanna_orders_concurrent [exBuy, exBuy] [] 0 10 "btc_jpy" =
      some { should_cancelled_orderids := [],
             first_posted_orders := [exBuy],
             second_posted_orders := [exBuy] } ∧
      (∀ o ∈ [exBuy, exBuy], o.pair = "btc_jpy") ∧
      ([exBuy] : List SimplifiedOrder).count exBuy ≤ 1 ∧
      ([exBuy] : List SimplifiedOrder).count exBuy ≤ 1 ∧
      (placementRequests "btc_jpy" [exBuy] [exBuy]).count
        (postReqOf "btc_jpy" exBuy) ≤ 2 := by
  have happ := placement_requests_dedup [exBuy, exBuy] [] 0 10 "btc_jpy"
    { should_cancelled_orderids := [], first_posted_orders := [exBuy],
      second_posted_orders := [exBuy] }
    place_wanna_dup_eval (by decide) exBuy
  exact ⟨place_wanna_dup_eval, by decide, happ.1, happ.2.1, happ.2.2⟩

/-! ## C6 -/

/-- A sample strategy configuration. -/
def exCfg : MyBotConfig :=
  { pair := "btc_jpy", tick_size := 1, refresh_cycle := 0, lot := 1,
    max_lot := 10 }

/-- Sample account balances: zero btc and zero jpy. -/
def exAssets : List BitbankAssetDatum :=
  [{ asset := "btc", free_amount := 0, locked_amount := 0 },
   { asset := "jpy", free_amount := 0, locked_amount := 0 }]

/-- A complete book whose ask side is empty (all asks consumed). -/
def exDepthEmptyAsk : BitbankDepth :=
  { diff_buffer := [], asks := [], bids := [(100, 3)], is_complete := true,
    last_timestamp := 0 }

/-- C6 counterexample: with a complete book whose ask side is empty, the
refresh routine does **not** treat the cycle as a no-op: it issues the two
account fetches and then fails (the `best_ask().unwrap()` panic), instead of
"no API calls, no failure". -/
theorem empty_side_panics_counterexample :
    exDepthEmptyAsk.is_complete = true ∧ exDepthEmptyAsk.asks = [] ∧
      updateOrders exCfg 1 0 exDepthEmptyAsk (Except.ok [])
        (Except.ok exAssets) = UpdateOutcome.panicked ∧
      (updateOrders exCfg 1 0 exDepthEmptyAsk (Except.ok [])
        (Except.ok exAssets)).apiCallsMade = true :=
  ⟨rfl, rfl, by decide, by decide⟩

/-- C6 (amended): when the refresh cycle is due and the book is complete but
one side is empty, `update_orders` performs the two account fetches and then
aborts the cycle with a panic at the `best_ask()`/`best_bid()` unwrap — not a
graceful no-op. -/
theorem update_orders_empty_side_panics (cfg : MyBotConfig)
    (now last_updated : Nat) (depth : BitbankDepth)
    (active_orders : List BitbankGetOrderResponse)
    (assets : List BitbankAssetDatum) (btcA jpyA : BitbankAssetDatum)
    (lockedSum : ℚ)
    (h1 : last_updated ≤ now) (h2 : now - last_updated ≥ cfg.refresh_cycle)
    (h3 : depth.is_complete = true)
    (h4 : assets.find? (fun a => a.asset = assetNameOf cfg.pair) = some btcA)
    (h5 : assets.find? (fun a => a.asset = "jpy") = some jpyA)
    (h6 : btcLockedJpyAmount active_orders = some lockedSum)
    (h7 : cfg.lot ≠ 0)
    (h8 : depth.asks = [] ∨ depth.bids = []) :
    updateOrders cfg now last_updated depth (Except.ok active_orders)
      (Except.ok assets) = UpdateOutcome.panicked ∧
    (updateOrders cfg now last_updated depth (Except.ok active_orders)
      (Except.ok assets)).apiCallsMade = true := by
  have heq : updateOrders cfg now last_updated depth
      (Except.ok active_orders) (Except.ok assets) =
      UpdateOutcome.panicked := by
    rw [updateOrders]
    rw [if_neg (not_not_intro h1), if_neg (not_not_intro h2),
      if_neg (not_not_intro h3)]
    simp only [h4, h5, h6, Option.bind_eq_bind, Option.some_bind,
      if_neg h7]
    rcases h8 with h8 | h8
    · have hba : depth.best_ask = none := by
        rw [BitbankDepth.best_ask, h8]
        rfl
      simp [hba]
    · cases hasks : depth.asks with
      | nil =>
        have hba : depth.best_ask = none := by
          rw [BitbankDepth.best_ask, hasks]
          rfl
        simp [hba]
      | cons lvl rest =>
        have hba : depth.best_ask = some lvl := by
          rw [BitbankDepth.best_ask, hasks]
          rfl
        have hbb : depth.best_bid = none := by
          rw [BitbankDepth.best_bid, h8]
          rfl
        simp [hba, hbb]
  exact ⟨heq, by rw [heq]; rfl⟩

/-- Witness for C6's amended statement at the concrete empty-ask book. -/
theorem update_orders_empty_side_panics_witness :
    (0 : Nat) ≤ 1 ∧ 1 - 0 ≥ exCfg.refresh_cycle ∧
      exDepthEmptyAsk.is_complete = true ∧
      exAssets.find? (fun a => a.asset = assetNameOf exCfg.pair) =
        some { asset := "btc", free_amount := 0, locked_amount := 0 } ∧
      exAssets.find? (fun a => a.asset = "jpy") =
        some { asset := "jpy", free_amount := 0, locked_amount := 0 } ∧
      btcLockedJpyAmount [] = some 0 ∧ exCfg.lot ≠ 0 ∧
      (exDepthEmptyAsk.asks = [] ∨ exDepthEmptyAsk.bids = []) ∧
      updateOrders exCfg 1 0 exDepthEmptyAsk (Except.ok [])
        (Except.ok exAssets) = UpdateOutcome.panicked ∧
      (updateOrders exCfg 1 0 exDepthEmptyAsk (Except.ok [])
        (Except.ok exAssets)).apiCallsMade = true := by
  have happ := update_orders_empty_side_panics exCfg 1 0 exDepthEmptyAsk []
    exAssets { asset := "btc", free_amount := 0, locked_amount := 0 }
    { asset := "jpy", free_amount := 0, locked_amount := 0 } 0
    (by decide) (by decide) rfl (by decide) (by decide) rfl (by decide)
    (Or.inl rfl)
  exact ⟨by decide, by decide, rfl, by decide, by decide, rfl, by decide,
    Or.inl rfl, happ.1, happ.2⟩

/-! ## C1 -/

/-- C1: `update_whole` drops exactly the buffered diffs whose sequence id is
lexicographically (strictly) below the snapshot's, clears and reloads both
sides from the snapshot, replays the surviving buffer — still sorted, hence
in ascending sequence-id order, with the same per-level `applyLevels` logic
`insert_diff` uses — without re-buffering anything, and marks the book
complete. -/
theorem update_whole_spec (st st' : BitbankDepth) (whole : BitbankDepthWhole)
    (hwf : DepthWF st) (h : st.update_whole whole = some st') :
    st'.diff_buffer =
      st.diff_buffer.filter (fun kd => ¬ kd.1 < whole.sequenceId) ∧
    (∀ kd ∈ st.diff_buffer, kd.1 < whole.sequenceId →
      kd ∉ st'.diff_buffer) ∧
    (∀ kd ∈ st.diff_buffer, ¬ kd.1 < whole.sequenceId →
      kd ∈ st'.diff_buffer) ∧
    SortedMap st'.diff_buffer ∧
    st'.asks =
      (st.diff_buffer.filter (fun kd => ¬ kd.1 < whole.sequenceId)).foldl
        (fun m kd => applyLevels kd.2.a m) (loadLevels whole.asks) ∧
    st'.bids =
      (st.diff_buffer.filter (fun kd => ¬ kd.1 < whole.sequenceId)).foldl
        (fun m kd => applyLevels kd.2.b m) (loadLevels whole.bids) ∧
    (∀ (s₀ : BitbankDepth) (d : BitbankDepthDiff),
      (s₀.insert_diff d).asks = applyLevels d.a s₀.asks ∧
      (s₀.insert_diff d).bids = applyLevels d.b s₀.bids) ∧
    st'.is_complete = true := by
  rw [BitbankDepth.update_whole] at h
  by_cases hz : (∀ lvl ∈ whole.asks, lvl.2 ≠ 0) ∧
      (∀ lvl ∈ whole.bids, lvl.2 ≠ 0)
  · rw [if_pos hz] at h
    obtain rfl := Option.some.inj h
    rw [BitbankDepth.process_diff_buffer, processFold_proj]
    refine ⟨rfl, ?_, ?_, ?_, rfl, rfl, fun s₀ d => ⟨rfl, rfl⟩, rfl⟩
    · intro kd hkd hlt hmem
      simp only [List.mem_filter, decide_eq_true_eq] at hmem
      exact hmem.2 hlt
    · intro kd hkd hnlt
      simp only [List.mem_filter, decide_eq_true_eq]
      exact ⟨hkd, hnlt⟩
    · exact hwf.1.filter _
  · rw [if_neg hz] at h
    exact Option.noConfusion h

/-- A diff buffered before the snapshot, with sequence id above the
snapshot's: it must survive the pruning and be replayed. -/
def exDiffKeep : BitbankDepthDiff :=
  { a := [(101, 2)], b := [], t := 5, s := ['3'] }

/-- A snapshot with sequence id `"2"`, below the buffered diff's `"3"`. -/
def exWhole : BitbankDepthWhole :=
  { asks := [(100, 1)], bids := [(99, 1)], timestamp := 10,
    sequenceId := ['2'] }

/-- The book state with `exDiffKeep` buffered. -/
def exDepthC1 : BitbankDepth :=
  BitbankDepth.new.insert_diff exDiffKeep

/-- The state `update_whole` produces from `exDepthC1` and `exWhole`:
snapshot levels loaded, the surviving diff replayed, book complete. -/
def exSnapResult : BitbankDepth :=
  { diff_buffer := [(['3'], exDiffKeep)], asks := [(100, 1), (101, 2)],
    bids := [(99, 1)], is_complete := true, last_timestamp := 10 }

/-- Witness for C1 at the concrete buffered book and snapshot. -/
theorem update_whole_spec_witness :
    DepthWF exDepthC1 ∧
      exDepthC1.update_whole exWhole = some exSnapResult ∧
      (exSnapResult.diff_buffer =
        exDepthC1.diff_buffer.filter
          (fun kd => ¬ kd.1 < exWhole.sequenceId) ∧
      (∀ kd ∈ exDepthC1.diff_buffer, kd.1 < exWhole.sequenceId →
        kd ∉ exSnapResult.diff_buffer) ∧
      (∀ kd ∈ exDepthC1.diff_buffer, ¬ kd.1 < exWhole.sequenceId →
        kd ∈ exSnapResult.diff_buffer) ∧
      SortedMap exSnapResult.diff_buffer ∧
      exSnapResult.asks =
        (exDepthC1.diff_buffer.filter
            (fun kd => ¬ kd.1 < exWhole.sequenceId)).foldl
          (fun m kd => applyLevels kd.2.a m) (loadLevels exWhole.asks) ∧
      exSnapResult.bids =
        (exDepthC1.diff_buffer.filter
            (fun kd => ¬ kd.1 < exWhole.sequenceId)).foldl
          (fun m kd => applyLevels kd.2.b m) (loadLevels exWhole.bids) ∧
      (∀ (s₀ : BitbankDepth) (d : BitbankDepthDiff),
        (s₀.insert_diff d).asks = applyLevels d.a s₀.asks ∧
        (s₀.insert_diff d).bids = applyLevels d.b s₀.bids) ∧
      exSnapResult.is_complete = true) :=
  ⟨by unfold DepthWF SortedMap; decide, by decide,
    update_whole_spec exDepthC1 exSnapResult exWhole
      (by unfold DepthWF SortedMap; decide) (by decide)⟩

/-! ## C2 machinery -/

/-- The diff buffer built by insert-folding a list of diffs (what
`insert_diff` leaves in `diff_buffer` after the diffs arrive in list
order). -/
def bufFold (l : List BitbankDepthDiff) : List (SeqId × BitbankDepthDiff) :=
  l.foldl (fun m d => mapInsert d.s d m) []

/-- A list of diffs as inbound websocket messages. -/
def diffMsgs (l : List BitbankDepthDiff) : List DepthMsg :=
  l.map DepthMsg.diff

theorem runMsgs_append (l₁ l₂ : List DepthMsg) (st : BitbankDepth) :
    runMsgs st (l₁ ++ l₂) =
      (runMsgs st l₁).bind (fun s => runMsgs s l₂) := by
  induction l₁ generalizing st with
  | nil => simp [runMsgs]
  | cons m t ih =>
    cases hm : applyMsg st m with
    | none => simp [runMsgs, List.foldlM_cons, hm]
    | some s₁ =>
      have h1 : runMsgs st ((m :: t) ++ l₂) = runMsgs s₁ (t ++ l₂) := by
        rw [List.cons_append, runMsgs, List.foldlM_cons, hm]
        simp [runMsgs, Option.bind_eq_bind, Option.some_bind]
      have h2 : runMsgs st (m :: t) = runMsgs s₁ t := by
        rw [runMsgs, List.foldlM_cons, hm]
        simp [runMsgs, Option.bind_eq_bind, Option.some_bind]
      rw [h1, h2, ih s₁]

theorem runMsgs_diffs (B : List BitbankDepthDiff) (st : BitbankDepth) :
    runMsgs st (diffMsgs B) =
      some (B.foldl BitbankDepth.insert_diff st) := by
  induction B generalizing st with
  | nil => rfl
  | cons d t ih =>
    rw [diffMsgs, List.map_cons, runMsgs, List.foldlM_cons]
    simp only [applyMsg, Option.bind_eq_bind, Option.some_bind]
    exact ih (st.insert_diff d)

/-- Projections of the `insert_diff` fold over a list of diffs. -/
theorem insertFold_proj (B : List BitbankDepthDiff) (st : BitbankDepth) :
    B.foldl BitbankDepth.insert_diff st =
      { st with
        diff_buffer := B.foldl (fun m d => mapInsert d.s d m) st.diff_buffer
        asks := B.foldl (fun m d => applyLevels d.a m) st.asks
        bids := B.foldl (fun m d => applyLevels d.b m) st.bids
        last_timestamp :=
          B.foldl (fun t d => if t < d.t then d.t else t)
            st.last_timestamp } := by
  induction B generalizing st with
  | nil => rfl
  | cons d t ih =>
    rw [List.foldl_cons, List.foldl_cons, List.foldl_cons, List.foldl_cons,
      List.foldl_cons]
    exact ih (st.insert_diff d)

theorem sorted_insFold (B : List BitbankDepthDiff)
    {m : List (SeqId × BitbankDepthDiff)} (h : SortedMap m) :
    SortedMap (B.foldl (fun m d => mapInsert d.s d m) m) := by
  induction B generalizing m with
  | nil => exact h
  | cons d t ih =>
    rw [List.foldl_cons]
    exact ih (sorted_mapInsert h)

theorem mem_insFold {B : List BitbankDepthDiff}
    {m : List (SeqId × BitbankDepthDiff)} {kd : SeqId × BitbankDepthDiff}
    (h : kd ∈ B.foldl (fun m d => mapInsert d.s d m) m) :
    kd ∈ m ∨ ∃ d ∈ B, kd = (d.s, d) := by
  induction B generalizing m with
  | nil => exact Or.inl h
  | cons d t ih =>
    rw [List.foldl_cons] at h
    rcases ih h with h' | ⟨d', hd', rfl⟩
    · rcases mem_mapInsert h' with h'' | h''
      · exact Or.inr ⟨d, by simp, h''⟩
      · exact Or.inl h''
    · exact Or.inr ⟨d', List.mem_cons_of_mem _ hd', rfl⟩

theorem lookup_insFold (B : List BitbankDepthDiff)
    (m : List (SeqId × BitbankDepthDiff)) (k : SeqId) :
    mapLookup k (B.foldl (fun m d => mapInsert d.s d m) m) =
      match B.reverse.find? (fun d => d.s == k) with
      | some d => some d
      | none => mapLookup k m := by
  induction B using List.reverseRecOn with
  | nil => simp
  | append_singleton t d ih =>
    rw [List.foldl_append, List.foldl_cons, List.foldl_nil,
      List.reverse_append, List.reverse_singleton, List.singleton_append,
      List.find?_cons]
    by_cases hk : d.s = k
    · subst hk
      simp only [beq_self_eq_true]
      exact mapLookup_mapInsert_self _ _ _
    · have hb : (d.s == k) = false := beq_eq_false_iff_ne.mpr hk
      simp only [hb]
      rw [mapLookup_mapInsert_ne (fun hh => hk hh.symm)]
      exact ih

theorem find_unique {l : List BitbankDepthDiff} {k : SeqId}
    {d : BitbankDepthDiff}
    (hnd : (l.map (fun d => d.s)).Nodup) :
    l.find? (fun d => d.s == k) = some d ↔ d ∈ l ∧ d.s = k := by
  constructor
  · intro h
    refine ⟨List.mem_of_find?_eq_some h, ?_⟩
    have := List.find?_some h
    simpa using this
  · intro ⟨hmem, hk⟩
    cases hfind : l.find? (fun d => d.s == k) with
    | none =>
      rw [List.find?_eq_none] at hfind
      exact absurd (by simpa using hk) (by simpa using hfind d hmem)
    | some d' =>
      have hd'm := List.mem_of_find?_eq_some hfind
      have hd'k : d'.s = k := by simpa using List.find?_some hfind
      have : d' = d := by
        have hinj := List.inj_on_of_nodup_map hnd
        exact hinj hd'm hmem (by rw [hd'k, hk])
      rw [this]

theorem lookup_bufFold_some {B : List BitbankDepthDiff} {k : SeqId}
    {d : BitbankDepthDiff} (hnd : (B.map (fun d => d.s)).Nodup) :
    mapLookup k (bufFold B) = some d ↔ d ∈ B ∧ d.s = k := by
  rw [bufFold, lookup_insFold]
  have hndr : (B.reverse.map (fun d => d.s)).Nodup := by
    rw [List.map_reverse]
    exact List.nodup_reverse.mpr hnd
  cases hfind : B.reverse.find? (fun d => d.s == k) with
  | none =>
    simp only [mapLookup]
    constructor
    · intro h
      exact Option.noConfusion h
    · intro ⟨hmem, hk⟩
      rw [List.find?_eq_none] at hfind
      exact absurd (by simpa using hk)
        (by simpa using hfind d (List.mem_reverse.mpr hmem))
  | some d' =>
    have := (find_unique hndr).mp hfind
    simp only [Option.some.injEq]
    constructor
    · rintro rfl
      exact ⟨List.mem_reverse.mp this.1, this.2⟩
    · intro ⟨hmem, hk⟩
      have hinj := List.inj_on_of_nodup_map hndr
      exact hinj this.1 (List.mem_reverse.mpr hmem)
        (by rw [this.2, hk])

theorem bufFold_perm {B₁ B₂ : List BitbankDepthDiff} (hp : B₁.Perm B₂)
    (hnd : (B₁.map (fun d => d.s)).Nodup) :
    bufFold B₁ = bufFold B₂ := by
  have hnd₂ : (B₂.map (fun d => d.s)).Nodup := (hp.map _).nodup_iff.mp hnd
  refine sortedMap_ext (sorted_insFold B₁ List.Pairwise.nil)
    (sorted_insFold B₂ List.Pairwise.nil) (fun k => ?_)
  cases hc : mapLookup k (bufFold B₂) with
  | some d =>
    have := (lookup_bufFold_some hnd₂).mp hc
    exact (lookup_bufFold_some hnd).mpr ⟨hp.mem_iff.mpr this.1, this.2⟩
  | none =>
    cases hc' : mapLookup k (bufFold B₁) with
    | none => rfl
    | some d =>
      have := (lookup_bufFold_some hnd).mp hc'
      have h2 := (lookup_bufFold_some hnd₂).mpr ⟨hp.mem_iff.mp this.1,
        this.2⟩
      rw [hc] at h2
      exact Option.noConfusion h2

theorem mapInsert_append_of_forall_lt {k : SeqId} {v : BitbankDepthDiff}
    {m : List (SeqId × BitbankDepthDiff)} (h : ∀ p ∈ m, p.1 < k) :
    mapInsert k v m = m ++ [(k, v)] := by
  induction m with
  | nil => rfl
  | cons hd t ih =>
    obtain ⟨k₁, v₁⟩ := hd
    have hk₁ : k₁ < k := h (k₁, v₁) (by simp)
    rw [mapInsert_cons, if_neg (not_lt.mpr (le_of_lt hk₁)),
      if_neg (ne_of_gt hk₁), ih (fun p hp => h p (by simp [hp]))]
    rfl

theorem insFold_append {A : List BitbankDepthDiff}
    {m : List (SeqId × BitbankDepthDiff)}
    (hlt : ∀ p ∈ m, ∀ d ∈ A, p.1 < d.s)
    (hA : A.Pairwise (fun d₁ d₂ => d₁.s < d₂.s)) :
    A.foldl (fun m d => mapInsert d.s d m) m =
      m ++ A.map (fun d => (d.s, d)) := by
  induction A generalizing m with
  | nil => simp
  | cons d t ih =>
    rw [List.foldl_cons,
      mapInsert_append_of_forall_lt (fun p hp => hlt p hp d (by simp))]
    rw [ih ?_ (List.Pairwise.of_cons hA)]
    · simp
    · intro p hp d' hd'
      rcases List.mem_append.mp hp with hp' | hp'
      · exact hlt p hp' d' (List.mem_cons_of_mem _ hd')
      · have : p = (d.s, d) := by simpa using hp'
        rw [this]
        exact List.rel_of_pairwise_cons hA hd'

theorem update_whole_fields {st st' : BitbankDepth}
    {whole : BitbankDepthWhole} (h : st.update_whole whole = some st') :
    st'.diff_buffer =
      st.diff_buffer.filter (fun kd => ¬ kd.1 < whole.sequenceId) ∧
    st'.asks =
      (st.diff_buffer.filter (fun kd => ¬ kd.1 < whole.sequenceId)).foldl
        (fun m kd => applyLevels kd.2.a m) (loadLevels whole.asks) ∧
    st'.bids =
      (st.diff_buffer.filter (fun kd => ¬ kd.1 < whole.sequenceId)).foldl
        (fun m kd => applyLevels kd.2.b m) (loadLevels whole.bids) := by
  rw [BitbankDepth.update_whole] at h
  by_cases hz : (∀ lvl ∈ whole.asks, lvl.2 ≠ 0) ∧
      (∀ lvl ∈ whole.bids, lvl.2 ≠ 0)
  · rw [if_pos hz] at h
    obtain rfl := Option.some.inj h
    rw [BitbankDepth.process_diff_buffer, processFold_proj]
    exact ⟨rfl, rfl, rfl⟩
  · rw [if_neg hz] at h
    exact Option.noConfusion h

theorem update_whole_total {st : BitbankDepth} {whole : BitbankDepthWhole}
    (hz : (∀ lvl ∈ whole.asks, lvl.2 ≠ 0) ∧
      (∀ lvl ∈ whole.bids, lvl.2 ≠ 0)) :
    ∃ st', st.update_whole whole = some st' := by
  rw [BitbankDepth.update_whole, if_pos hz]
  exact ⟨_, rfl⟩

theorem update_whole_nonzero {st st' : BitbankDepth}
    {whole : BitbankDepthWhole} (h : st.update_whole whole = some st') :
    (∀ lvl ∈ whole.asks, lvl.2 ≠ 0) ∧ (∀ lvl ∈ whole.bids, lvl.2 ≠ 0) := by
  rw [BitbankDepth.update_whole] at h
  by_cases hz : (∀ lvl ∈ whole.asks, lvl.2 ≠ 0) ∧
      (∀ lvl ∈ whole.bids, lvl.2 ≠ 0)
  · exact hz
  · rw [if_neg hz] at h
    exact Option.noConfusion h

/-- Decomposition of a `diffs-before, snapshot, diffs-after` run into its
three stages. -/
theorem run_stages (B A : List BitbankDepthDiff)
    (whole : BitbankDepthWhole) (st' : BitbankDepth)
    (h : runMsgs BitbankDepth.new
      (diffMsgs B ++ DepthMsg.whole whole :: diffMsgs A) = some st') :
    ∃ stW, (B.foldl BitbankDepth.insert_diff
        BitbankDepth.new).update_whole whole = some stW ∧
      st' = A.foldl BitbankDepth.insert_diff stW := by
  rw [runMsgs_append, runMsgs_diffs] at h
  simp only [Option.some_bind] at h
  rw [runMsgs, List.foldlM_cons] at h
  simp only [applyMsg] at h
  cases hw : (B.foldl BitbankDepth.insert_diff
      BitbankDepth.new).update_whole whole with
  | none => rw [hw] at h; simp at h
  | some stW =>
    rw [hw] at h
    simp only [Option.bind_eq_bind, Option.some_bind] at h
    rw [show (List.foldlM applyMsg stW (diffMsgs A) : Option BitbankDepth) =
        runMsgs stW (diffMsgs A) from rfl, runMsgs_diffs] at h
    exact ⟨stW, rfl, (Option.some.inj h).symm⟩

/-- The canonical book side C2 predicts: the snapshot's levels with the
kept diffs (ids not below the snapshot's) applied in ascending sequence-id
order. -/
def canonicalSide (levels : List (ℚ × ℚ)) (q : SeqId)
    (diffs : List BitbankDepthDiff)
    (proj : BitbankDepthDiff → List (ℚ × ℚ)) : List (ℚ × ℚ) :=
  ((bufFold diffs).filter (fun kd => ¬ kd.1 < q)).foldl
    (fun m kd => applyLevels (proj kd.2) m) (loadLevels levels)

theorem run_result (B A : List BitbankDepthDiff)
    (whole : BitbankDepthWhole) (st' : BitbankDepth)
    (hBA : ∀ db ∈ B, ∀ da ∈ A, db.s < da.s)
    (hA : A.Pairwise (fun d₁ d₂ => d₁.s < d₂.s))
    (hAge : ∀ d ∈ A, ¬ d.s < whole.sequenceId)
    (h : runMsgs BitbankDepth.new
      (diffMsgs B ++ DepthMsg.whole whole :: diffMsgs A) = some st') :
    st'.asks = canonicalSide whole.asks whole.sequenceId (B ++ A)
      (fun d => d.a) ∧
    st'.bids = canonicalSide whole.bids whole.sequenceId (B ++ A)
      (fun d => d.b) := by
  obtain ⟨stW, hw, rfl⟩ := run_stages B A whole st' h
  have hbufB : (B.foldl BitbankDepth.insert_diff
      BitbankDepth.new).diff_buffer = bufFold B := by
    rw [insertFold_proj]
    rfl
  obtain ⟨hwbuf, hwasks, hwbids⟩ := update_whole_fields hw
  rw [hbufB] at hwasks hwbids
  have hkeys : ∀ p ∈ bufFold B, ∀ d ∈ A, p.1 < d.s := by
    intro p hp d hd
    rcases mem_insFold hp with hp' | ⟨db, hdb, rfl⟩
    · simp at hp'
    · exact hBA db hdb d hd
  have hbufBA : bufFold (B ++ A) =
      bufFold B ++ A.map (fun d => (d.s, d)) := by
    rw [bufFold, List.foldl_append]
    exact insFold_append hkeys hA
  have hfilter :
      (bufFold (B ++ A)).filter (fun kd => ¬ kd.1 < whole.sequenceId) =
      (bufFold B).filter (fun kd => ¬ kd.1 < whole.sequenceId) ++
        A.map (fun d => (d.s, d)) := by
    rw [hbufBA, List.filter_append]
    congr 1
    rw [List.filter_eq_self]
    intro p hp
    obtain ⟨d, hd, rfl⟩ := List.mem_map.mp hp
    simpa using hAge d hd
  constructor
  · rw [insertFold_proj]
    show A.foldl (fun m d => applyLevels d.a m) stW.asks = _
    rw [canonicalSide, hfilter, List.foldl_append, ← hwasks,
      List.foldl_map]
  · rw [insertFold_proj]
    show A.foldl (fun m d => applyLevels d.b m) stW.bids = _
    rw [canonicalSide, hfilter, List.foldl_append, ← hwbids,
      List.foldl_map]

theorem run_total (B A : List BitbankDepthDiff)
    (whole : BitbankDepthWhole)
    (hz : (∀ lvl ∈ whole.asks, lvl.2 ≠ 0) ∧
      (∀ lvl ∈ whole.bids, lvl.2 ≠ 0)) :
    ∃ st', runMsgs BitbankDepth.new
      (diffMsgs B ++ DepthMsg.whole whole :: diffMsgs A) = some st' := by
  obtain ⟨stW, hw⟩ :=
    @update_whole_total (B.foldl BitbankDepth.insert_diff BitbankDepth.new)
      whole hz
  refine ⟨A.foldl BitbankDepth.insert_diff stW, ?_⟩
  rw [runMsgs_append, runMsgs_diffs]
  simp only [Option.some_bind]
  rw [runMsgs, List.foldlM_cons]
  simp only [applyMsg, hw, Option.bind_eq_bind, Option.some_bind]
  rw [show (List.foldlM applyMsg stW (diffMsgs A) : Option BitbankDepth) =
      runMsgs stW (diffMsgs A) from rfl, runMsgs_diffs]

/-! ## C2 -/

/-- A snapshot at sequence id `"2"` with one ask level. -/
def exWholeC2 : BitbankDepthWhole :=
  { asks := [(10, 1)], bids := [], timestamp := 0, sequenceId := ['2'] }

/-- A stale diff (sequence id `"1"`, below the snapshot's `"2"`) removing
the snapshot's ask level. -/
def exStaleDiff : BitbankDepthDiff :=
  { a := [(10, 0)], b := [], t := 0, s := ['1'] }

/-- C2 counterexample: one snapshot and one stale diff. Arriving before the
snapshot the diff is superseded (final asks `[(10, 1)]`); arriving after it
the stale diff is applied directly to the live book (final asks `[]`). The
final book is **not** independent of the arrival order, and differs from
"the snapshot plus the diffs with id ≥ q". -/
theorem stale_diff_after_snapshot_counterexample :
    (runMsgs BitbankDepth.new
        [DepthMsg.diff exStaleDiff, DepthMsg.whole exWholeC2]).map
      BitbankDepth.asks = some [(10, 1)] ∧
    (runMsgs BitbankDepth.new
        [DepthMsg.whole exWholeC2, DepthMsg.diff exStaleDiff]).map
      BitbankDepth.asks = some [] ∧
    (some [((10 : ℚ), (1 : ℚ))] : Option (List (ℚ × ℚ))) ≠ some [] := by
  refine ⟨by decide, by decide, by decide⟩

/-- C2 (amended): for one snapshot S (sequence id q) and diffs with distinct
ids, where the diffs arriving after S all have id ≥ q, exceed every id of a
diff arriving before S, and arrive in ascending id order, the final ask and
bid maps equal S's levels with exactly the diffs of id ≥ q applied in
ascending sequence-id order — independent of the arrival order of the
diffs that came before S. -/
theorem snapshot_diff_convergence (B A : List BitbankDepthDiff)
    (whole : BitbankDepthWhole) (st' : BitbankDepth)
    (hids : ((B ++ A).map (fun d => d.s)).Nodup)
    (hBA : ∀ db ∈ B, ∀ da ∈ A, db.s < da.s)
    (hA : A.Pairwise (fun d₁ d₂ => d₁.s < d₂.s))
    (hAge : ∀ d ∈ A, ¬ d.s < whole.sequenceId)
    (h : runMsgs BitbankDepth.new
      (diffMsgs B ++ DepthMsg.whole whole :: diffMsgs A) = some st') :
    st'.asks = canonicalSide whole.asks whole.sequenceId (B ++ A)
      (fun d => d.a) ∧
    st'.bids = canonicalSide whole.bids whole.sequenceId (B ++ A)
      (fun d => d.b) ∧
    ∀ B₂, B₂.Perm B →
      ∃ st₂, runMsgs BitbankDepth.new
        (diffMsgs B₂ ++ DepthMsg.whole whole :: diffMsgs A) = some st₂ ∧
        st₂.asks = st'.asks ∧ st₂.bids = st'.bids := by
  obtain ⟨hasks, hbids⟩ := run_result B A whole st' hBA hA hAge h
  refine ⟨hasks, hbids, fun B₂ hperm => ?_⟩
  obtain ⟨stW, hw, _⟩ := run_stages B A whole st' h
  have hz := update_whole_nonzero hw
  obtain ⟨st₂, h₂⟩ := run_total B₂ A whole hz
  have hBA₂ : ∀ db ∈ B₂, ∀ da ∈ A, db.s < da.s :=
    fun db hdb da hda => hBA db (hperm.mem_iff.mp hdb) da hda
  obtain ⟨hasks₂, hbids₂⟩ := run_result B₂ A whole st₂ hBA₂ hA hAge h₂
  have hbf : bufFold (B₂ ++ A) = bufFold (B ++ A) :=
    bufFold_perm (hperm.append_right A)
      (((hperm.append_right A).map _).nodup_iff.mpr hids)
  refine ⟨st₂, h₂, ?_, ?_⟩
  · rw [hasks₂, hasks, canonicalSide, canonicalSide, hbf]
  · rw [hbids₂, hbids, canonicalSide, canonicalSide, hbf]

/-- A diff kept by the snapshot pruning (id `"5"` ≥ `"4"`), arriving before
the snapshot. -/
def exDiffB5 : BitbankDepthDiff :=
  { a := [(101, 2)], b := [], t := 1, s := ['5'] }

/-- A stale diff (id `"3"` < `"4"`), arriving before the snapshot after
`exDiffB5` — out of id order. -/
def exDiffB3 : BitbankDepthDiff :=
  { a := [(100, 0)], b := [], t := 2, s := ['3'] }

/-- A diff arriving after the snapshot, id `"6"` above everything. -/
def exDiffA6 : BitbankDepthDiff :=
  { a := [(102, 3)], b := [], t := 3, s := ['6'] }

/-- The C2 witness snapshot, sequence id `"4"`. -/
def exWholeC2W : BitbankDepthWhole :=
  { asks := [(100, 1)], bids := [(99, 1)], timestamp := 10,
    sequenceId := ['4'] }

/-- The final state of the C2 witness run: snapshot levels, the kept diff
`"5"` replayed, the post-snapshot diff `"6"` applied. -/
def exC2Final : BitbankDepth :=
  { diff_buffer := [(['5'], exDiffB5), (['6'], exDiffA6)],
    asks := [(100, 1), (101, 2), (102, 3)], bids := [(99, 1)],
    is_complete := true, last_timestamp := 10 }

/-- Witness for C2's amended statement: two pre-snapshot diffs arriving out
of id order (one stale), one post-snapshot diff. -/
theorem snapshot_diff_convergence_witness :
    (([exDiffB5, exDiffB3] ++ [exDiffA6]).map (fun d => d.s)).Nodup ∧
      (∀ db ∈ [exDiffB5, exDiffB3], ∀ da ∈ [exDiffA6], db.s < da.s) ∧
      ([exDiffA6].Pairwise (fun d₁ d₂ => d₁.s < d₂.s)) ∧
      (∀ d ∈ [exDiffA6], ¬ d.s < exWholeC2W.sequenceId) ∧
      runMsgs BitbankDepth.new
        (diffMsgs [exDiffB5, exDiffB3] ++
          DepthMsg.whole exWholeC2W :: diffMsgs [exDiffA6]) =
        some exC2Final ∧
      exC2Final.asks = canonicalSide exWholeC2W.asks exWholeC2W.sequenceId
        ([exDiffB5, exDiffB3] ++ [exDiffA6]) (fun d => d.a) ∧
      exC2Final.bids = canonicalSide exWholeC2W.bids exWholeC2W.sequenceId
        ([exDiffB5, exDiffB3] ++ [exDiffA6]) (fun d => d.b) := by
  have happ := snapshot_diff_convergence [exDiffB5, exDiffB3] [exDiffA6]
    exWholeC2W exC2Final (by decide) (by decide) (by decide) (by decide)
    (by decide)
  exact ⟨by decide, by decide, by decide, by decide, by decide, happ.1,
    happ.2.1⟩
